import Mathlib

/-!
Verification of the trip-planning optimizer of the Farming Simulator 25
Stock Calculator (`src/fsstock/core/optimizer.py` and
`src/fsstock/core/models.py`).

All numeric quantities are modelled as exact rationals, following the
spec's numeric semantics ("all revenue arithmetic uses
price-per-unit-quantity multiplied by quantity; no rounding during
computation").

The Python `heapq` priority queue of `_min_trips_needed` and
`_max_revenue_possible` always holds at most one candidate per product
(a candidate is pushed only when the previous candidate of the same
product is popped), and candidates are keyed by the tuple
`(-value, product_id, kind)`.  Popping the heap therefore returns the
candidate with the highest value, ties broken by smallest product id
(then by kind, `full` before `last`).  `greedyStep` below models exactly
that selection.

The `while heap and total < target` loop of `_min_trips_needed` is
unbounded in the source; here it is written with explicit fuel.  Each
iteration pops one trip, and `availTrips` counts the trips a state can
ever offer, so fuel `availTrips` is exactly enough: this is proved by
`minTripsGo_fuel_irrelevant` below.  Product identifiers are required to
be unique among inputs by the spec ("Product identifiers must be
unique"); theorems that depend on the Python `dict` keying of the state
carry a corresponding `Nodup` hypothesis.
-/

/- `Rat.add` and friends are `@[irreducible]` in Batteries, which blocks
`decide` on concrete rational computations; restore the default
transparency for this file. -/
attribute [local semireducible] Rat.add Rat.mul Rat.inv Rat.sub

/-- Mirror of `OptProduct` in `models.py`. -/
structure OptProduct where
  productId : String
  stockL : ℚ
  minKeepL : ℚ
  capPerTripL : ℚ
  pricePer1000 : ℚ
  enabled : Bool
deriving DecidableEq

/-- The two kinds of trips: a full trip, or the single "last" (remainder) trip. -/
inductive TripKind where
  | full
  | last
deriving DecidableEq

/-- Scratch state used by the greedy simulations (`tmp` dictionaries built in
`_min_trips_needed` and `_max_revenue_possible`): the six fields
`remaining_full`, `rem_l`, `last_used`, `cap`, `p_per_l`, `product_id`. -/
structure GState where
  productId : String
  remainingFull : ℕ
  remL : ℚ
  lastUsed : Bool
  cap : ℚ
  pPerL : ℚ
deriving DecidableEq

/-- A heap candidate `(value, product_id, kind)` as produced by
`_candidate_for_max_revenue`. -/
structure Cand where
  value : ℚ
  productId : String
  kind : TripKind
deriving DecidableEq

/-- Full per-product state built by `_init_state`. -/
structure PState where
  productId : String
  stockL : ℚ
  minKeepL : ℚ
  cap : ℚ
  pPerL : ℚ
  sellableL : ℚ
  remainingFull : ℕ
  remL : ℚ
  lastUsed : Bool
  soldL : ℚ
  chosenFull : ℕ
  chosenLast : Bool
deriving DecidableEq

/-- A candidate of the step-2 construction loop of `optimize_min_trips`:
`(pid, kind, sold, value)` together with `remaining_stock_after`. -/
structure StepCand where
  productId : String
  kind : TripKind
  sold : ℚ
  value : ℚ
  remainingStockAfter : ℚ
deriving DecidableEq

/-- Mirror of `TripPlanLine` in `models.py`. -/
structure TripPlanLine where
  productId : String
  fullTrips : ℕ
  lastPartialUsed : Bool
  soldL : ℚ
  revenueEur : ℚ
deriving DecidableEq

/-- Mirror of `TripPlan` in `models.py`. -/
structure TripPlan where
  feasible : Bool
  targetEur : ℚ
  totalRevenueEur : ℚ
  totalTrips : ℕ
  lines : List TripPlanLine
  reason : Option String
deriving DecidableEq

/-- Mirror of `_init_state`: keep products that are enabled, have positive
per-trip capacity and stock strictly above the keep threshold; derive the
number of full trips `floor(sellable / cap)` and the remainder. -/
def initState (products : List OptProduct) : List PState :=
  products.filterMap fun pr =>
    if pr.enabled = true ∧ 0 < pr.capPerTripL ∧ pr.minKeepL < pr.stockL then
      some
        { productId := pr.productId
          stockL := pr.stockL
          minKeepL := pr.minKeepL
          cap := pr.capPerTripL
          pPerL := pr.pricePer1000 / 1000
          sellableL := pr.stockL - pr.minKeepL
          remainingFull := (⌊(pr.stockL - pr.minKeepL) / pr.capPerTripL⌋).toNat
          remL := (pr.stockL - pr.minKeepL) -
            (⌊(pr.stockL - pr.minKeepL) / pr.capPerTripL⌋ : ℚ) * pr.capPerTripL
          lastUsed := false
          soldL := 0
          chosenFull := 0
          chosenLast := false }
    else none

/-- Projection of a `PState` entry to the scratch fields copied by the
greedy helpers. -/
def toGState (e : PState) : GState :=
  { productId := e.productId
    remainingFull := e.remainingFull
    remL := e.remL
    lastUsed := e.lastUsed
    cap := e.cap
    pPerL := e.pPerL }

/-- Mirror of `_candidate_for_max_revenue`: a full trip while full trips
remain, else the last trip if it has a positive remainder and has not been
used yet. -/
def candidateForMaxRevenue (g : GState) : Option Cand :=
  if 0 < g.remainingFull then some ⟨g.cap * g.pPerL, g.productId, TripKind.full⟩
  else if 0 < g.remL ∧ g.lastUsed = false then
    some ⟨g.remL * g.pPerL, g.productId, TripKind.last⟩
  else none

/-- All current heap candidates of a scratch state (the heap holds exactly
one candidate per product that offers one). -/
def candsOf (gs : List GState) : List Cand :=
  gs.filterMap candidateForMaxRevenue

/-- Lexicographic comparison of product identifiers by code points,
exactly as Python compares `str` tuple components.  (Mathlib's `<` on
`String` is the same order, but is computed through `String.ltb`, which
does not reduce inside `decide`; the core list order does.) -/
def pidLt (s t : String) : Prop :=
  List.lt s.data t.data

instance : DecidableRel pidLt := fun s t => List.hasDecidableLt s.data t.data

/-- The matching non-strict comparison. -/
def pidLe (s t : String) : Prop :=
  ¬ pidLt t s

instance : DecidableRel pidLe := fun s t => inferInstanceAs (Decidable (¬ pidLt t s))

/-- Heap priority: `a` pops before `b` iff `(-a.value, a.pid, a.kind)` is
lexicographically smaller than `(-b.value, b.pid, b.kind)` (with
`full < last`, matching the strings `"full" < "last"`). -/
def heapLt (a b : Cand) : Prop :=
  b.value < a.value ∨
    (a.value = b.value ∧
      (pidLt a.productId b.productId ∨
        (a.productId = b.productId ∧ a.kind = TripKind.full ∧ b.kind = TripKind.last)))

instance : DecidableRel heapLt := fun a b => by
  unfold heapLt
  infer_instance

/-- One comparison of the heap-minimum computation. -/
def popStep (acc : Option Cand) (c : Cand) : Option Cand :=
  match acc with
  | none => some c
  | some b => if heapLt c b then some c else some b

/-- Pop of the heap: the candidate with the smallest heap key. -/
def popBest (cs : List Cand) : Option Cand :=
  cs.foldl popStep none

/-- Apply a popped candidate to its product's scratch entry:
`remaining_full -= 1` for a full trip, `last_used = True` for a last trip. -/
def applyKind (g : GState) (k : TripKind) : GState :=
  match k with
  | TripKind.full => { g with remainingFull := g.remainingFull - 1 }
  | TripKind.last => { g with lastUsed := true }

/-- Apply a popped candidate to the scratch state (keyed by product id). -/
def applyCand (gs : List GState) (pid : String) (k : TripKind) : List GState :=
  gs.map fun g => if g.productId = pid then applyKind g k else g

/-- One iteration of the greedy loops: pop the best candidate and update
the popped product's entry. -/
def greedyStep (gs : List GState) : Option (Cand × List GState) :=
  match popBest (candsOf gs) with
  | none => none
  | some c => some (c, applyCand gs c.productId c.kind)

/-- Mirror of `_max_revenue_possible` on the scratch state: total value of
up to `n` greedy pops. -/
def maxRevenue : List GState → ℕ → ℚ
  | _, 0 => 0
  | gs, n + 1 =>
    match greedyStep gs with
    | none => 0
    | some (c, gs') => c.value + maxRevenue gs' n

/-- Number of trips an entry can still offer: its remaining full trips,
plus one for an unused positive remainder. -/
def entryAvail (g : GState) : ℕ :=
  g.remainingFull + (if 0 < g.remL ∧ g.lastUsed = false then 1 else 0)

/-- Number of trips the whole state can still offer; an exact bound on the
number of greedy pops. -/
def availTrips (gs : List GState) : ℕ :=
  (gs.map entryAvail).sum

/-- The greedy revenue with the trip budget exhausted: the "true maximum
obtainable revenue with unlimited trips" of the spec (`availTrips` bounds
the number of pops, so this budget consumes everything). -/
def maxRevenueExhaustive (gs : List GState) : ℚ :=
  maxRevenue gs (availTrips gs)

/-- The spec's "true maximum obtainable revenue" on a full product state. -/
def maxRevenueUnlimited (st : List PState) : ℚ :=
  maxRevenueExhaustive (st.map toGState)

/-- All quantities feeding trip values are nonnegative (true for every
state built by `_init_state` from products with nonnegative prices). -/
def NonnegValues (gs : List GState) : Prop :=
  ∀ g ∈ gs, 0 ≤ g.cap ∧ 0 ≤ g.pPerL ∧ 0 ≤ g.remL

/-- The `while heap and total < target` loop of `_min_trips_needed`,
with explicit fuel (`availTrips` fuel is exactly enough, see
`minTripsGo_fuel_irrelevant`). -/
def minTripsGo : ℕ → List GState → ℚ → ℕ → ℚ → Option ℕ
  | 0, _, total, trips, target => if target ≤ total then some trips else none
  | fuel + 1, gs, total, trips, target =>
    if target ≤ total then some trips
    else
      match greedyStep gs with
      | none => none
      | some (c, gs') => minTripsGo fuel gs' (total + c.value) (trips + 1) target

/-- Mirror of `_min_trips_needed`. -/
def minTripsNeeded (st : List PState) (target : ℚ) : Option ℕ :=
  if target ≤ 0 then some 0
  else minTripsGo (availTrips (st.map toGState)) (st.map toGState) 0 0 target

/-- Mirror of `_max_revenue_possible` (which first projects the state to
the scratch fields). -/
def maxRevenuePossible (st : List PState) (tripsLeft : ℕ) : ℚ :=
  maxRevenue (st.map toGState) tripsLeft

/-- Candidate enumeration of the construction loop of `optimize_min_trips`:
per product, a full trip if available, else the last trip, with
`remaining_stock_after = stock_l - sold_l - sold`. -/
def stepCands (st : List PState) : List StepCand :=
  st.filterMap fun e =>
    if 0 < e.remainingFull then
      some ⟨e.productId, TripKind.full, e.cap, e.cap * e.pPerL, e.stockL - e.soldL - e.cap⟩
    else if 0 < e.remL ∧ e.lastUsed = false then
      some ⟨e.productId, TripKind.last, e.remL, e.remL * e.pPerL, e.stockL - e.soldL - e.remL⟩
    else none

/-- The tentative `st_temp` of the construction loop: copy the state and
apply the candidate to its product's entry (only `remaining_full` /
`last_used` change). -/
def applyChoice (st : List PState) (pid : String) (k : TripKind) : List PState :=
  st.map fun e =>
    if e.productId = pid then
      match k with
      | TripKind.full => { e with remainingFull := e.remainingFull - 1 }
      | TripKind.last => { e with lastUsed := true }
    else e

/-- Candidates passing the feasibility guard
`total + value + max_future >= target_eur`. -/
def survivors (st : List PState) (total target : ℚ) (tripsLeftAfter : ℕ) : List StepCand :=
  (stepCands st).filter fun c =>
    decide (target ≤ total + c.value +
      maxRevenuePossible (applyChoice st c.productId c.kind) tripsLeftAfter)

/-- Selection key order of the construction loop: the code keeps the
candidate maximizing `(remaining_stock_after, value, product_id)`
lexicographically. -/
def stepKeyLt (a b : StepCand) : Prop :=
  a.remainingStockAfter < b.remainingStockAfter ∨
    (a.remainingStockAfter = b.remainingStockAfter ∧
      (a.value < b.value ∨ (a.value = b.value ∧ pidLt a.productId b.productId)))

instance : DecidableRel stepKeyLt := fun a b => by
  unfold stepKeyLt
  infer_instance

/-- One comparison of the candidate loop: the source replaces the best
candidate when `(best_key is None) or (key > best_key)`. -/
def pickStep (acc : Option StepCand) (c : StepCand) : Option StepCand :=
  match acc with
  | none => some c
  | some b => if stepKeyLt b c then some c else some b

/-- The accumulation of the candidate loop over all surviving candidates. -/
def pickBest (cs : List StepCand) : Option StepCand :=
  cs.foldl pickStep none

/-- One construction step: the surviving candidate with the greatest key,
or `none` if no candidate passes the guard (in which case the Python code
would crash unpacking `best_choice = None`). -/
def stepChoose (st : List PState) (total target : ℚ) (tripsLeftAfter : ℕ) : Option StepCand :=
  pickBest (survivors st total target tripsLeftAfter)

/-- Commit the chosen candidate to its product's entry (`sold_l`,
`chosen_full` / `chosen_last`, `remaining_full` / `last_used`). -/
def commitEntry (c : StepCand) (e : PState) : PState :=
  if e.productId = c.productId then
    match c.kind with
    | TripKind.full =>
      { e with
        soldL := e.soldL + c.sold
        chosenFull := e.chosenFull + 1
        remainingFull := e.remainingFull - 1 }
    | TripKind.last =>
      { e with
        soldL := e.soldL + c.sold
        chosenLast := true
        lastUsed := true }
  else e

/-- Commit the chosen candidate to the actual state (keyed by product id). -/
def commitChoice (st : List PState) (c : StepCand) : List PState :=
  st.map (commitEntry c)

/-- The `for step in range(1, K+1)` construction loop; the first argument
is the number of steps still to run, so `trips_left_after` is its
predecessor.  Returns `none` when a step finds no guard-passing candidate
(the `None` dereference of the source). -/
def buildGo : ℕ → List PState → ℚ → ℕ → ℚ → Option (List PState × ℚ × ℕ)
  | 0, st, total, trips, _ => some (st, total, trips)
  | k + 1, st, total, trips, target =>
    match stepChoose st total target k with
    | none => none
    | some c => buildGo k (commitChoice st c) (total + c.value) (trips + 1) target

/-- Emit one plan line per product actually used. -/
def buildLines (st : List PState) : List TripPlanLine :=
  st.filterMap fun e =>
    if e.chosenFull = 0 ∧ e.chosenLast = false then none
    else some ⟨e.productId, e.chosenFull, e.chosenLast, e.soldL, e.soldL * e.pPerL⟩

/-- Presentation order of the plan lines: ascending in the key
`(-(full_trips + partial), -sold_l, product_id)`. -/
def lineLE (a b : TripPlanLine) : Prop :=
  b.fullTrips + (if b.lastPartialUsed then 1 else 0) <
      a.fullTrips + (if a.lastPartialUsed then 1 else 0) ∨
    (a.fullTrips + (if a.lastPartialUsed then 1 else 0) =
        b.fullTrips + (if b.lastPartialUsed then 1 else 0) ∧
      (b.soldL < a.soldL ∨ (a.soldL = b.soldL ∧ pidLe a.productId b.productId)))

instance : DecidableRel lineLE := fun a b => by
  unfold lineLE
  infer_instance

/-- The `lines.sort(key=...)` call. -/
def sortLines (lines : List TripPlanLine) : List TripPlanLine :=
  List.insertionSort lineLE lines

/-- Number of full trips of an eligible product, as computed by
`_init_state` (`floor(sellable / cap)`). -/
def fullTripsOf (pr : OptProduct) : ℕ :=
  (⌊(pr.stockL - pr.minKeepL) / pr.capPerTripL⌋).toNat

/-- Capacity remainder of an eligible product, as computed by
`_init_state` (`sellable - floor(sellable / cap) * cap`). -/
def remainderOf (pr : OptProduct) : ℚ :=
  (pr.stockL - pr.minKeepL) -
    (⌊(pr.stockL - pr.minKeepL) / pr.capPerTripL⌋ : ℚ) * pr.capPerTripL

/-- The per-product stock-conservation equation of the spec: the sold
quantity always equals `chosen_full * cap` plus the remainder when the
partial trip was used, and the `chosen_last` / `last_used` flags agree
during construction. -/
def SoldInv (e : PState) : Prop :=
  e.soldL = e.chosenFull * e.cap + (if e.chosenLast then e.remL else 0) ∧
    e.chosenLast = e.lastUsed

/-- Everything the construction loop preserves about one state entry,
relative to the product it was built from. -/
def EntryInv (pr : OptProduct) (e : PState) : Prop :=
  pr.enabled = true ∧ 0 < pr.capPerTripL ∧ pr.minKeepL < pr.stockL ∧
    e.productId = pr.productId ∧ e.stockL = pr.stockL ∧ e.minKeepL = pr.minKeepL ∧
    e.cap = pr.capPerTripL ∧ e.pPerL = pr.pricePer1000 / 1000 ∧
    e.sellableL = pr.stockL - pr.minKeepL ∧
    e.remL = remainderOf pr ∧
    e.chosenFull + e.remainingFull = fullTripsOf pr ∧
    SoldInv e ∧
    (e.chosenLast = true → e.remainingFull = 0)

/-- Every state entry is linked by `EntryInv` to one of the input
products. -/
def StateInv (products : List OptProduct) (st : List PState) : Prop :=
  ∀ e ∈ st, ∃ pr ∈ products, EntryInv pr e

/-- Trips committed so far, summed over the state. -/
def stTrips (st : List PState) : ℕ :=
  (st.map fun e => e.chosenFull + if e.chosenLast then 1 else 0).sum

/-- Revenue committed so far, summed over the state. -/
def stRevenue (st : List PState) : ℚ :=
  (st.map fun e => e.soldL * e.pPerL).sum

/-- Trip count of a list of plan lines (full trips plus one per used
partial trip). -/
def planTrips (lines : List TripPlanLine) : ℕ :=
  (lines.map fun l => l.fullTrips + if l.lastPartialUsed then 1 else 0).sum

/-- Total revenue of a list of plan lines. -/
def planRevenue (lines : List TripPlanLine) : ℚ :=
  (lines.map fun l => l.revenueEur).sum

/-- Mirror of `optimize_min_trips`.  Returns `none` exactly when the
source would raise (unpacking `best_choice = None` in a construction
step); all normal outcomes are `some` plans. -/
def optimizeMinTrips (products : List OptProduct) (targetEur : ℚ) : Option TripPlan :=
  if targetEur ≤ 0 then
    some ⟨false, targetEur, 0, 0, [], some "objective.plan_info.no_plan"⟩
  else if initState products = [] then
    some ⟨false, targetEur, 0, 0, [], some "objective.plan_info.no_products"⟩
  else
    match minTripsNeeded (initState products) targetEur with
    | none =>
      some ⟨false, targetEur, maxRevenuePossible (initState products) (10 ^ 9), 0, [],
        some "objective.plan_info.not_reached_quota"⟩
    | some k =>
      (buildGo k (initState products) 0 0 targetEur).map fun r =>
        ⟨true, targetEur, r.2.1, r.2.2, sortLines (buildLines r.1), none⟩

example :
    optimizeMinTrips [⟨"a", 100, 0, 30, 1000, true⟩] 50 =
      some ⟨true, 50, 60, 2, [⟨"a", 2, false, 60, 60⟩], none⟩ := by decide

example :
    optimizeMinTrips [⟨"a", 100, 0, 30, 1000, true⟩] 0 =
      some ⟨false, 0, 0, 0, [], some "objective.plan_info.no_plan"⟩ := by decide

example : optimizeMinTrips [] 10 =
    some ⟨false, 10, 0, 0, [], some "objective.plan_info.no_products"⟩ := by decide

/-! ### Generic facts about the best-candidate folds -/

theorem foldl_choice_isSome {α : Type} (f : Option α → α → Option α)
    (hf : ∀ b c, f (some b) c = some b ∨ f (some b) c = some c) :
    ∀ (l : List α) (b : α), ∃ r, List.foldl f (some b) l = some r := by
  intro l
  induction l with
  | nil => exact fun b => ⟨b, rfl⟩
  | cons c l ih =>
    intro b
    rcases hf b c with h | h <;> simp only [List.foldl_cons, h] <;> exact ih _

theorem foldl_choice_mem {α : Type} (f : Option α → α → Option α)
    (hf : ∀ b c, f (some b) c = some b ∨ f (some b) c = some c) :
    ∀ (l : List α) (b r : α), List.foldl f (some b) l = some r → r = b ∨ r ∈ l := by
  intro l
  induction l with
  | nil =>
    intro b r h
    exact Or.inl (Option.some_injective _ h).symm
  | cons c l ih =>
    intro b r h
    simp only [List.foldl_cons] at h
    rcases hf b c with h' | h' <;> rw [h'] at h
    · rcases ih _ _ h with h'' | h''
      · exact Or.inl h''
      · exact Or.inr (List.mem_cons_of_mem _ h'')
    · rcases ih _ _ h with h'' | h''
      · exact Or.inr (h'' ▸ List.mem_cons_self _ _)
      · exact Or.inr (List.mem_cons_of_mem _ h'')

theorem popStep_choice (b c : Cand) : popStep (some b) c = some b ∨ popStep (some b) c = some c := by
  by_cases h : heapLt c b
  · exact Or.inr (by simp [popStep, h])
  · exact Or.inl (by simp [popStep, h])

theorem pickStep_choice (b c : StepCand) :
    pickStep (some b) c = some b ∨ pickStep (some b) c = some c := by
  by_cases h : stepKeyLt b c
  · exact Or.inr (by simp [pickStep, h])
  · exact Or.inl (by simp [pickStep, h])

theorem popBest_eq_none_iff (cs : List Cand) : popBest cs = none ↔ cs = [] := by
  cases cs with
  | nil => simp [popBest]
  | cons c l =>
    simp only [popBest, List.foldl_cons]
    have h0 : popStep none c = some c := rfl
    rw [h0]
    obtain ⟨r, hr⟩ := foldl_choice_isSome popStep popStep_choice l c
    simp [hr]

theorem popBest_mem {cs : List Cand} {c : Cand} (h : popBest cs = some c) : c ∈ cs := by
  cases cs with
  | nil => simp [popBest] at h
  | cons c0 l =>
    simp only [popBest, List.foldl_cons] at h
    have h0 : popStep none c0 = some c0 := rfl
    rw [h0] at h
    rcases foldl_choice_mem popStep popStep_choice l c0 c h with h' | h'
    · exact h' ▸ List.mem_cons_self _ _
    · exact List.mem_cons_of_mem _ h'

theorem pickBest_eq_none_iff (cs : List StepCand) : pickBest cs = none ↔ cs = [] := by
  cases cs with
  | nil => simp [pickBest]
  | cons c l =>
    simp only [pickBest, List.foldl_cons]
    have h0 : pickStep none c = some c := rfl
    rw [h0]
    obtain ⟨r, hr⟩ := foldl_choice_isSome pickStep pickStep_choice l c
    simp [hr]

theorem pickBest_mem {cs : List StepCand} {c : StepCand} (h : pickBest cs = some c) : c ∈ cs := by
  cases cs with
  | nil => simp [pickBest] at h
  | cons c0 l =>
    simp only [pickBest, List.foldl_cons] at h
    have h0 : pickStep none c0 = some c0 := rfl
    rw [h0] at h
    rcases foldl_choice_mem pickStep pickStep_choice l c0 c h with h' | h'
    · exact h' ▸ List.mem_cons_self _ _
    · exact List.mem_cons_of_mem _ h'

/-! ### Characterization of greedy candidates -/

theorem candidateForMaxRevenue_spec {g : GState} {c : Cand}
    (h : candidateForMaxRevenue g = some c) :
    c.productId = g.productId ∧
      ((c.kind = TripKind.full ∧ 0 < g.remainingFull ∧ c.value = g.cap * g.pPerL) ∨
        (c.kind = TripKind.last ∧ g.remainingFull = 0 ∧ 0 < g.remL ∧ g.lastUsed = false ∧
          c.value = g.remL * g.pPerL)) := by
  unfold candidateForMaxRevenue at h
  split at h
  · cases h
    exact ⟨rfl, Or.inl ⟨rfl, by omega, rfl⟩⟩
  · split at h
    · cases h
      rename_i h1 h2
      exact ⟨rfl, Or.inr ⟨rfl, by omega, h2.1, h2.2, rfl⟩⟩
    · cases h

theorem candidateForMaxRevenue_eq_none_iff (g : GState) :
    candidateForMaxRevenue g = none ↔ entryAvail g = 0 := by
  unfold candidateForMaxRevenue entryAvail
  by_cases h1 : 0 < g.remainingFull <;> by_cases h2 : 0 < g.remL ∧ g.lastUsed = false <;>
    simp [h1, h2] <;> omega

theorem availTrips_eq_zero_iff (gs : List GState) :
    availTrips gs = 0 ↔ ∀ g ∈ gs, candidateForMaxRevenue g = none := by
  unfold availTrips
  rw [List.sum_eq_zero_iff]
  constructor
  · intro h g hg
    rw [candidateForMaxRevenue_eq_none_iff]
    exact h _ (List.mem_map_of_mem _ hg)
  · intro h x hx
    rcases List.mem_map.mp hx with ⟨g, hg, rfl⟩
    exact (candidateForMaxRevenue_eq_none_iff g).mp (h g hg)

theorem candsOf_eq_nil_iff (gs : List GState) :
    candsOf gs = [] ↔ ∀ g ∈ gs, candidateForMaxRevenue g = none := by
  unfold candsOf
  exact List.filterMap_eq_nil_iff

theorem greedyStep_eq_none_iff (gs : List GState) : greedyStep gs = none ↔ availTrips gs = 0 := by
  unfold greedyStep
  rw [availTrips_eq_zero_iff, ← candsOf_eq_nil_iff, ← popBest_eq_none_iff]
  cases popBest (candsOf gs) <;> simp

theorem greedyStep_some_spec {gs : List GState} {c : Cand} {gs' : List GState}
    (h : greedyStep gs = some (c, gs')) :
    c ∈ candsOf gs ∧ gs' = applyCand gs c.productId c.kind := by
  unfold greedyStep at h
  cases hp : popBest (candsOf gs) with
  | none => rw [hp] at h; cases h
  | some c0 =>
    rw [hp] at h
    cases h
    exact ⟨popBest_mem hp, rfl⟩

theorem mem_candsOf {gs : List GState} {c : Cand} (h : c ∈ candsOf gs) :
    ∃ g ∈ gs, candidateForMaxRevenue g = some c := by
  unfold candsOf at h
  rcases List.mem_filterMap.mp h with ⟨g, hg, hc⟩
  exact ⟨g, hg, hc⟩

/-! ### Unfolding equations for the greedy revenue -/

theorem maxRevenue_succ_of_step {gs : List GState} {c : Cand} {gs' : List GState}
    (hg : greedyStep gs = some (c, gs')) (n : ℕ) :
    maxRevenue gs (n + 1) = c.value + maxRevenue gs' n := by
  simp [maxRevenue, hg]

theorem maxRevenue_succ_of_none {gs : List GState}
    (hg : greedyStep gs = none) (n : ℕ) :
    maxRevenue gs (n + 1) = 0 := by
  simp [maxRevenue, hg]

/-! ### Trip availability accounting -/

theorem entryAvail_applyKind_le (g : GState) (k : TripKind) :
    entryAvail (applyKind g k) ≤ entryAvail g := by
  cases k <;> by_cases h : 0 < g.remL ∧ g.lastUsed = false <;>
    simp [applyKind, entryAvail, h]

theorem entryAvail_applyKind_ge (g : GState) (k : TripKind) :
    entryAvail g ≤ entryAvail (applyKind g k) + 1 := by
  cases k <;> by_cases h : 0 < g.remL ∧ g.lastUsed = false <;>
    simp [applyKind, entryAvail, h] <;> omega

theorem entryAvail_applyKind_lt {g : GState} {c : Cand}
    (h : candidateForMaxRevenue g = some c) :
    entryAvail (applyKind g c.kind) < entryAvail g := by
  rcases candidateForMaxRevenue_spec h with ⟨hpid, ⟨hk, hpos, hval⟩ | ⟨hk, hrf, hrem, hlu, hval⟩⟩
  · rw [hk]
    by_cases h2 : 0 < g.remL ∧ g.lastUsed = false <;>
      simp [applyKind, entryAvail, h2] <;> omega
  · rw [hk]
    simp [applyKind, entryAvail, hrf, hrem, hlu]

theorem applyCand_cons (g : GState) (gs : List GState) (pid : String) (k : TripKind) :
    applyCand (g :: gs) pid k =
      (if g.productId = pid then applyKind g k else g) :: applyCand gs pid k := rfl

theorem applyCand_eq_self {gs : List GState} {pid : String} {k : TripKind}
    (h : ∀ g ∈ gs, g.productId ≠ pid) : applyCand gs pid k = gs := by
  induction gs with
  | nil => rfl
  | cons g gs ih =>
    rw [applyCand_cons, if_neg (h g (List.mem_cons_self g gs)),
      ih fun g' hg' => h g' (List.mem_cons_of_mem _ hg')]

theorem availTrips_cons (g : GState) (gs : List GState) :
    availTrips (g :: gs) = entryAvail g + availTrips gs := by
  simp [availTrips]

theorem availTrips_applyCand_le (gs : List GState) (pid : String) (k : TripKind) :
    availTrips (applyCand gs pid k) ≤ availTrips gs := by
  induction gs with
  | nil => exact le_rfl
  | cons g gs ih =>
    rw [applyCand_cons, availTrips_cons, availTrips_cons]
    by_cases h : g.productId = pid
    · rw [if_pos h]
      have := entryAvail_applyKind_le g k
      omega
    · rw [if_neg h]
      omega

theorem availTrips_applyCand_lt {gs : List GState} {g0 : GState} {c : Cand}
    (hg0 : g0 ∈ gs) (hc : candidateForMaxRevenue g0 = some c) :
    availTrips (applyCand gs c.productId c.kind) < availTrips gs := by
  induction gs with
  | nil => cases hg0
  | cons g gs ih =>
    rcases List.mem_cons.mp hg0 with heq | hmem
    · subst heq
      rw [applyCand_cons, availTrips_cons, availTrips_cons]
      have hpid : g0.productId = c.productId := ((candidateForMaxRevenue_spec hc).1).symm
      rw [if_pos hpid]
      have h1 := entryAvail_applyKind_lt hc
      have h2 := availTrips_applyCand_le gs c.productId c.kind
      omega
    · rw [applyCand_cons, availTrips_cons, availTrips_cons]
      by_cases h : g.productId = c.productId
      · rw [if_pos h]
        have h1 := entryAvail_applyKind_le g c.kind
        have h2 := ih hmem
        omega
      · rw [if_neg h]
        have := ih hmem
        omega

theorem availTrips_applyCand_ge {gs : List GState} (hnd : (gs.map GState.productId).Nodup)
    (pid : String) (k : TripKind) :
    availTrips gs ≤ availTrips (applyCand gs pid k) + 1 := by
  induction gs with
  | nil => simp [applyCand, availTrips]
  | cons g gs ih =>
    rw [List.map_cons, List.nodup_cons] at hnd
    rw [applyCand_cons, availTrips_cons, availTrips_cons]
    by_cases h : g.productId = pid
    · have hrest : applyCand gs pid k = gs := by
        apply applyCand_eq_self
        intro g' hg' hh
        apply hnd.1
        have hm := List.mem_map_of_mem GState.productId hg'
        rwa [hh, ← h] at hm
      rw [if_pos h, hrest]
      have := entryAvail_applyKind_ge g k
      omega
    · rw [if_neg h]
      have := ih hnd.2
      omega

theorem greedyStep_avail_lt {gs : List GState} {c : Cand} {gs' : List GState}
    (h : greedyStep gs = some (c, gs')) : availTrips gs' < availTrips gs := by
  obtain ⟨hmem, rfl⟩ := greedyStep_some_spec h
  obtain ⟨g0, hg0, hc⟩ := mem_candsOf hmem
  exact availTrips_applyCand_lt hg0 hc

/-! ### Stabilization of the greedy revenue -/

theorem maxRevenue_congr_avail :
    ∀ (n : ℕ) (gs : List GState) (m : ℕ), availTrips gs ≤ n → availTrips gs ≤ m →
      maxRevenue gs n = maxRevenue gs m := by
  intro n
  induction n with
  | zero =>
    intro gs m hn hm
    have hnone : greedyStep gs = none := (greedyStep_eq_none_iff gs).mpr (by omega)
    cases m with
    | zero => rfl
    | succ m => simp [maxRevenue, hnone]
  | succ n ih =>
    intro gs m hn hm
    cases hg : greedyStep gs with
    | none =>
      cases m with
      | zero => simp [maxRevenue, hg]
      | succ m => simp [maxRevenue, hg]
    | some p =>
      obtain ⟨c, gs'⟩ := p
      have hpos : 0 < availTrips gs := by
        rcases Nat.eq_zero_or_pos (availTrips gs) with h0 | h
        · rw [(greedyStep_eq_none_iff gs).mpr h0] at hg; cases hg
        · exact h
      cases m with
      | zero => omega
      | succ m =>
        have hlt := greedyStep_avail_lt hg
        simp only [maxRevenue, hg]
        rw [ih gs' m (by omega) (by omega)]

theorem maxRevenue_eq_exhaustive {gs : List GState} {n : ℕ} (h : availTrips gs ≤ n) :
    maxRevenue gs n = maxRevenueExhaustive gs :=
  maxRevenue_congr_avail n gs (availTrips gs) h le_rfl

/-! ### Specification of the minimum-trip search loop -/

theorem minTripsGo_fuel_irrelevant :
    ∀ (f1 : ℕ) (gs : List GState) (f2 : ℕ) (total : ℚ) (trips : ℕ) (target : ℚ),
      availTrips gs ≤ f1 → availTrips gs ≤ f2 →
      minTripsGo f1 gs total trips target = minTripsGo f2 gs total trips target := by
  intro f1
  induction f1 with
  | zero =>
    intro gs f2 total trips target h1 h2
    have hnone : greedyStep gs = none := (greedyStep_eq_none_iff gs).mpr (by omega)
    cases f2 with
    | zero => rfl
    | succ f2 => simp [minTripsGo, hnone]
  | succ f1 ih =>
    intro gs f2 total trips target h1 h2
    cases hg : greedyStep gs with
    | none =>
      cases f2 with
      | zero => simp [minTripsGo, hg]
      | succ f2 => simp [minTripsGo, hg]
    | some p =>
      obtain ⟨c, gs'⟩ := p
      have hpos : 0 < availTrips gs := by
        rcases Nat.eq_zero_or_pos (availTrips gs) with h0 | h
        · rw [(greedyStep_eq_none_iff gs).mpr h0] at hg; cases hg
        · exact h
      cases f2 with
      | zero => omega
      | succ f2 =>
        have hlt := greedyStep_avail_lt hg
        simp only [minTripsGo, hg]
        by_cases ht : target ≤ total
        · simp [ht]
        · simp only [ht, if_false]
          exact ih gs' f2 _ _ _ (by omega) (by omega)

theorem minTripsGo_some_spec :
    ∀ (fuel : ℕ) (gs : List GState) (total : ℚ) (trips kk : ℕ) (target : ℚ),
      availTrips gs ≤ fuel → minTripsGo fuel gs total trips target = some kk →
      trips ≤ kk ∧ kk - trips ≤ availTrips gs ∧
        target ≤ total + maxRevenue gs (kk - trips) ∧
        ∀ j < kk - trips, total + maxRevenue gs j < target := by
  intro fuel
  induction fuel with
  | zero =>
    intro gs total trips kk target hf h
    simp only [minTripsGo] at h
    split at h
    · cases h
      rename_i ht
      refine ⟨le_rfl, by omega, by simpa [maxRevenue] using ht, ?_⟩
      intro j hj
      omega
    · cases h
  | succ fuel ih =>
    intro gs total trips kk target hf h
    simp only [minTripsGo] at h
    split at h
    · cases h
      rename_i ht
      refine ⟨le_rfl, by omega, by simpa [maxRevenue] using ht, ?_⟩
      intro j hj
      omega
    · rename_i ht
      cases hg : greedyStep gs with
      | none => rw [hg] at h; cases h
      | some p =>
        obtain ⟨c, gs'⟩ := p
        rw [hg] at h
        have hlt := greedyStep_avail_lt hg
        obtain ⟨h1, h2, h3, h4⟩ := ih gs' (total + c.value) (trips + 1) kk target (by omega) h
        have hks : kk - trips = (kk - (trips + 1)) + 1 := by omega
        refine ⟨by omega, by omega, ?_, ?_⟩
        · rw [hks]
          simp only [maxRevenue, hg]
          linarith
        · intro j hj
          cases j with
          | zero =>
            simp only [maxRevenue, add_zero]
            exact not_le.mp ht
          | succ j =>
            simp only [maxRevenue, hg]
            have := h4 j (by omega)
            linarith

theorem minTripsGo_none_spec :
    ∀ (fuel : ℕ) (gs : List GState) (total : ℚ) (trips : ℕ) (target : ℚ),
      availTrips gs ≤ fuel → minTripsGo fuel gs total trips target = none →
      ∀ n, total + maxRevenue gs n < target := by
  intro fuel
  induction fuel with
  | zero =>
    intro gs total trips target hf h n
    simp only [minTripsGo] at h
    split at h
    · cases h
    · rename_i ht
      have hnone : greedyStep gs = none := (greedyStep_eq_none_iff gs).mpr (by omega)
      have hz : maxRevenue gs n = 0 := by cases n <;> simp [maxRevenue, hnone]
      rw [hz, add_zero]
      exact not_le.mp ht
  | succ fuel ih =>
    intro gs total trips target hf h n
    simp only [minTripsGo] at h
    split at h
    · cases h
    · rename_i ht
      cases hg : greedyStep gs with
      | none =>
        have hz : maxRevenue gs n = 0 := by cases n <;> simp [maxRevenue, hg]
        rw [hz, add_zero]
        exact not_le.mp ht
      | some p =>
        obtain ⟨c, gs'⟩ := p
        rw [hg] at h
        have hlt := greedyStep_avail_lt hg
        have hrec := ih gs' (total + c.value) (trips + 1) target (by omega) h
        cases n with
        | zero =>
          simp only [maxRevenue, add_zero]
          exact not_le.mp ht
        | succ n =>
          simp only [maxRevenue, hg]
          have := hrec n
          linarith

/-! ### Nonnegative trip values and monotonicity in the trip budget -/

theorem cand_value_nonneg {gs : List GState} (hn : NonnegValues gs) {c : Cand}
    (hc : c ∈ candsOf gs) : 0 ≤ c.value := by
  obtain ⟨g, hg, h⟩ := mem_candsOf hc
  obtain ⟨hcap, hp, hrem⟩ := hn g hg
  rcases candidateForMaxRevenue_spec h with ⟨_, ⟨_, _, hval⟩ | ⟨_, _, _, _, hval⟩⟩
  · rw [hval]; exact mul_nonneg hcap hp
  · rw [hval]; exact mul_nonneg hrem hp

theorem nonneg_applyCand {gs : List GState} (hn : NonnegValues gs) (pid : String) (k : TripKind) :
    NonnegValues (applyCand gs pid k) := by
  intro g hg
  unfold applyCand at hg
  rcases List.mem_map.mp hg with ⟨g0, hg0, rfl⟩
  by_cases h : g0.productId = pid
  · obtain ⟨h1, h2, h3⟩ := hn g0 hg0
    rw [if_pos h]
    cases k <;> exact ⟨h1, h2, h3⟩
  · rw [if_neg h]
    exact hn g0 hg0

theorem maxRevenue_nonneg {gs : List GState} (hn : NonnegValues gs) (n : ℕ) :
    0 ≤ maxRevenue gs n := by
  induction n generalizing gs with
  | zero => exact le_rfl
  | succ n ih =>
    cases hg : greedyStep gs with
    | none => simp [maxRevenue, hg]
    | some p =>
      obtain ⟨c, gs'⟩ := p
      obtain ⟨hmem, rfl⟩ := greedyStep_some_spec hg
      simp only [maxRevenue, hg]
      have h1 := cand_value_nonneg hn hmem
      have h2 := ih (nonneg_applyCand hn c.productId c.kind)
      linarith

theorem maxRevenue_le_succ {gs : List GState} (hn : NonnegValues gs) (n : ℕ) :
    maxRevenue gs n ≤ maxRevenue gs (n + 1) := by
  induction n generalizing gs with
  | zero =>
    cases hg : greedyStep gs with
    | none => simp [maxRevenue, hg]
    | some p =>
      obtain ⟨c, gs'⟩ := p
      obtain ⟨hmem, rfl⟩ := greedyStep_some_spec hg
      simp only [maxRevenue, hg]
      have h1 := cand_value_nonneg hn hmem
      have h2 := maxRevenue_nonneg (nonneg_applyCand hn c.productId c.kind) 0
      linarith
  | succ n ih =>
    cases hg : greedyStep gs with
    | none => simp [maxRevenue, hg]
    | some p =>
      obtain ⟨c, gs'⟩ := p
      obtain ⟨hmem, rfl⟩ := greedyStep_some_spec hg
      simp only [maxRevenue_succ_of_step hg]
      have := ih (nonneg_applyCand hn c.productId c.kind)
      linarith

theorem maxRevenue_mono {gs : List GState} (hn : NonnegValues gs) {n m : ℕ} (h : n ≤ m) :
    maxRevenue gs n ≤ maxRevenue gs m := by
  induction m with
  | zero =>
    have : n = 0 := by omega
    subst this
    exact le_rfl
  | succ m ih =>
    rcases Nat.lt_or_ge n (m + 1) with h' | h'
    · exact le_trans (ih (by omega)) (maxRevenue_le_succ hn m)
    · have : n = m + 1 := by omega
      subst this
      exact le_rfl

theorem maxRevenue_le_exhaustive {gs : List GState} (hn : NonnegValues gs) (n : ℕ) :
    maxRevenue gs n ≤ maxRevenueExhaustive gs := by
  rcases le_total n (availTrips gs) with h | h
  · exact maxRevenue_mono hn h
  · exact le_of_eq (maxRevenue_eq_exhaustive h)

/-! ### Specification of `_min_trips_needed` -/

theorem minTripsNeeded_some_spec {st : List PState} {target : ℚ} {kk : ℕ}
    (ht : 0 < target) (h : minTripsNeeded st target = some kk) :
    1 ≤ kk ∧ kk ≤ availTrips (st.map toGState) ∧
      target ≤ maxRevenue (st.map toGState) kk ∧
      ∀ j < kk, maxRevenue (st.map toGState) j < target := by
  unfold minTripsNeeded at h
  rw [if_neg (not_le.mpr ht)] at h
  obtain ⟨h1, h2, h3, h4⟩ := minTripsGo_some_spec _ _ 0 0 kk target le_rfl h
  simp only [Nat.sub_zero, zero_add] at h2 h3 h4
  have hk1 : 1 ≤ kk := by
    by_contra hk
    have hk0 : kk = 0 := by omega
    subst hk0
    simp only [maxRevenue] at h3
    linarith
  exact ⟨hk1, h2, h3, h4⟩

theorem minTripsNeeded_none_spec {st : List PState} {target : ℚ}
    (ht : 0 < target) (h : minTripsNeeded st target = none) :
    ∀ n, maxRevenue (st.map toGState) n < target := by
  unfold minTripsNeeded at h
  rw [if_neg (not_le.mpr ht)] at h
  intro n
  have := minTripsGo_none_spec _ _ 0 0 target le_rfl h n
  linarith

theorem minTripsNeeded_eq_none {st : List PState} {target : ℚ}
    (ht : 0 < target) (hn : NonnegValues (st.map toGState))
    (h : maxRevenueExhaustive (st.map toGState) < target) :
    minTripsNeeded st target = none := by
  cases hm : minTripsNeeded st target with
  | none => rfl
  | some kk =>
    obtain ⟨_, _, h3, _⟩ := minTripsNeeded_some_spec ht hm
    have := maxRevenue_le_exhaustive hn kk
    linarith

/-! ### Specification of one construction step -/

theorem stepChoose_spec {st : List PState} {total target : ℚ} {tla : ℕ} {c : StepCand}
    (h : stepChoose st total target tla = some c) :
    c ∈ stepCands st ∧
      target ≤ total + c.value + maxRevenuePossible (applyChoice st c.productId c.kind) tla := by
  unfold stepChoose at h
  have hmem := pickBest_mem h
  unfold survivors at hmem
  have h1 := List.mem_filter.mp hmem
  exact ⟨h1.1, of_decide_eq_true h1.2⟩

theorem mem_stepCands {st : List PState} {c : StepCand} (h : c ∈ stepCands st) :
    ∃ e ∈ st, c.productId = e.productId ∧
      ((c.kind = TripKind.full ∧ 0 < e.remainingFull ∧ c.sold = e.cap ∧
          c.value = e.cap * e.pPerL ∧ c.remainingStockAfter = e.stockL - e.soldL - e.cap) ∨
        (c.kind = TripKind.last ∧ e.remainingFull = 0 ∧ 0 < e.remL ∧ e.lastUsed = false ∧
          c.sold = e.remL ∧ c.value = e.remL * e.pPerL ∧
          c.remainingStockAfter = e.stockL - e.soldL - e.remL)) := by
  unfold stepCands at h
  rcases List.mem_filterMap.mp h with ⟨e, he, hc⟩
  refine ⟨e, he, ?_⟩
  split at hc
  · rename_i h1
    cases hc
    exact ⟨rfl, Or.inl ⟨rfl, h1, rfl, rfl, rfl⟩⟩
  · split at hc
    · rename_i h1 h2
      cases hc
      exact ⟨rfl, Or.inr ⟨rfl, by omega, h2.1, h2.2, rfl, rfl, rfl⟩⟩
    · cases hc

/-! ### Basic facts about the construction loop -/

theorem maxRevenuePossible_def (st : List PState) (n : ℕ) :
    maxRevenuePossible st n = maxRevenue (st.map toGState) n := rfl

theorem buildGo_trips :
    ∀ (k : ℕ) (st : List PState) (total : ℚ) (trips : ℕ) (target : ℚ) (st' : List PState)
      (total' : ℚ) (trips' : ℕ),
      buildGo k st total trips target = some (st', total', trips') → trips' = trips + k := by
  intro k
  induction k with
  | zero =>
    intro st total trips target st' total' trips' h
    simp only [buildGo] at h
    cases h
    omega
  | succ k ih =>
    intro st total trips target st' total' trips' h
    simp only [buildGo] at h
    cases hc : stepChoose st total target k with
    | none => rw [hc] at h; cases h
    | some c =>
      rw [hc] at h
      have := ih _ _ _ _ _ _ _ h
      omega

theorem buildGo_total_ge_target :
    ∀ (k : ℕ) (st : List PState) (total : ℚ) (trips : ℕ) (target : ℚ) (st' : List PState)
      (total' : ℚ) (trips' : ℕ),
      1 ≤ k → buildGo k st total trips target = some (st', total', trips') → target ≤ total' := by
  intro k
  induction k with
  | zero =>
    intro st total trips target st' total' trips' hk _
    omega
  | succ k ih =>
    intro st total trips target st' total' trips' hk h
    simp only [buildGo] at h
    cases hc : stepChoose st total target k with
    | none => rw [hc] at h; cases h
    | some c =>
      rw [hc] at h
      cases k with
      | zero =>
        obtain ⟨hmem, hguard⟩ := stepChoose_spec hc
        simp only [buildGo] at h
        cases h
        simp only [maxRevenuePossible_def, maxRevenue] at hguard
        linarith
      | succ k' =>
        exact ih _ _ _ _ _ _ _ (by omega) h

/-! ### Case analysis of `optimize_min_trips` -/

theorem optimize_feasible_spec {products : List OptProduct} {target : ℚ} {P : TripPlan}
    (h : optimizeMinTrips products target = some P) (hf : P.feasible = true) :
    0 < target ∧ initState products ≠ [] ∧
      ∃ kk st' total trips,
        minTripsNeeded (initState products) target = some kk ∧
        buildGo kk (initState products) 0 0 target = some (st', total, trips) ∧
        P = ⟨true, target, total, trips, sortLines (buildLines st'), none⟩ := by
  unfold optimizeMinTrips at h
  split at h
  · cases h; simp at hf
  · split at h
    · cases h; simp at hf
    · rename_i ht hne
      split at h
      · cases h; simp at hf
      · rename_i kk hm
        cases hb : buildGo kk (initState products) 0 0 target with
        | none => rw [hb] at h; simp at h
        | some r =>
          rw [hb] at h
          obtain ⟨st', total, trips⟩ := r
          simp only [Option.map_some'] at h
          cases h
          exact ⟨not_le.mp ht, hne, kk, st', total, trips, hm, hb, rfl⟩

theorem optimize_infeasible_spec {products : List OptProduct} {target : ℚ} {P : TripPlan}
    (h : optimizeMinTrips products target = some P) (hf : P.feasible = false) :
    P.lines = [] ∧ P.totalTrips = 0 ∧ P.targetEur = target ∧
      ((P.reason = some "objective.plan_info.no_plan" ∧ target ≤ 0 ∧ P.totalRevenueEur = 0) ∨
        (P.reason = some "objective.plan_info.no_products" ∧ initState products = [] ∧
          P.totalRevenueEur = 0) ∨
        (P.reason = some "objective.plan_info.not_reached_quota" ∧ 0 < target ∧
          initState products ≠ [] ∧ minTripsNeeded (initState products) target = none ∧
          P.totalRevenueEur = maxRevenuePossible (initState products) (10 ^ 9))) := by
  unfold optimizeMinTrips at h
  split at h
  · rename_i ht
    cases h
    exact ⟨rfl, rfl, rfl, Or.inl ⟨rfl, ht, rfl⟩⟩
  · split at h
    · rename_i ht hinit
      cases h
      exact ⟨rfl, rfl, rfl, Or.inr (Or.inl ⟨rfl, hinit, rfl⟩)⟩
    · rename_i ht hinit
      split at h
      · rename_i hm
        cases h
        exact ⟨rfl, rfl, rfl, Or.inr (Or.inr ⟨rfl, not_le.mp ht, hinit, hm, rfl⟩)⟩
      · rename_i kk hm
        cases hb : buildGo kk (initState products) 0 0 target with
        | none => rw [hb] at h; simp at h
        | some r =>
          rw [hb] at h
          obtain ⟨st', total, trips⟩ := r
          simp only [Option.map_some'] at h
          cases h
          simp at hf

/-! ### Projection and identifier bookkeeping -/

theorem toGState_applyChoice (st : List PState) (pid : String) (k : TripKind) :
    (applyChoice st pid k).map toGState = applyCand (st.map toGState) pid k := by
  unfold applyChoice applyCand
  rw [List.map_map, List.map_map]
  apply List.map_congr_left
  intro e _
  by_cases h : e.productId = pid
  · have h' : (toGState e).productId = pid := h
    simp only [Function.comp_apply, if_pos h, if_pos h']
    cases k <;> rfl
  · have h' : ¬(toGState e).productId = pid := h
    simp only [Function.comp_apply, if_neg h, if_neg h']

theorem toGState_commitChoice (st : List PState) (c : StepCand) :
    (commitChoice st c).map toGState = applyCand (st.map toGState) c.productId c.kind := by
  unfold commitChoice commitEntry applyCand
  rw [List.map_map, List.map_map]
  apply List.map_congr_left
  intro e _
  by_cases h : e.productId = c.productId
  · have h' : (toGState e).productId = c.productId := h
    simp only [Function.comp_apply, if_pos h, if_pos h']
    cases c.kind <;> rfl
  · have h' : ¬(toGState e).productId = c.productId := h
    simp only [Function.comp_apply, if_neg h, if_neg h']

theorem commitChoice_ids (st : List PState) (c : StepCand) :
    (commitChoice st c).map (fun e => e.productId) = st.map (fun e => e.productId) := by
  unfold commitChoice commitEntry
  rw [List.map_map]
  apply List.map_congr_left
  intro e _
  by_cases h : e.productId = c.productId
  · simp only [Function.comp_apply, if_pos h]
    cases c.kind <;> rfl
  · simp only [Function.comp_apply, if_neg h]

theorem toGState_ids (st : List PState) :
    (st.map toGState).map GState.productId = st.map (fun e => e.productId) := by
  rw [List.map_map]
  rfl

theorem initState_ids_sublist (products : List OptProduct) :
    List.Sublist ((initState products).map fun e => e.productId)
      (products.map fun p => p.productId) := by
  induction products with
  | nil => simp [initState]
  | cons p ps ih =>
    simp only [initState, List.filterMap_cons] at *
    split
    · simp only [List.map_cons]
      exact List.Sublist.cons _ ih
    · rename_i val heq
      split at heq
      · cases heq
        simp only [List.map_cons]
        exact List.Sublist.cons₂ _ ih
      · cases heq

/-! ### Progress of the construction loop -/

theorem stepCands_of_greedy {st : List PState} {c : Cand}
    (h : c ∈ candsOf (st.map toGState)) :
    ∃ sc ∈ stepCands st, sc.productId = c.productId ∧ sc.kind = c.kind ∧ sc.value = c.value := by
  obtain ⟨g, hg, hcg⟩ := mem_candsOf h
  rcases List.mem_map.mp hg with ⟨e, he, rfl⟩
  unfold candidateForMaxRevenue at hcg
  split at hcg
  · rename_i h1
    have h1' : 0 < e.remainingFull := h1
    cases hcg
    refine ⟨⟨e.productId, TripKind.full, e.cap, e.cap * e.pPerL, e.stockL - e.soldL - e.cap⟩,
      ?_, rfl, rfl, rfl⟩
    unfold stepCands
    exact List.mem_filterMap.mpr ⟨e, he, by rw [if_pos h1']⟩
  · split at hcg
    · rename_i h1 h2
      have h1' : ¬0 < e.remainingFull := h1
      have h2' : 0 < e.remL ∧ e.lastUsed = false := h2
      cases hcg
      refine ⟨⟨e.productId, TripKind.last, e.remL, e.remL * e.pPerL, e.stockL - e.soldL - e.remL⟩,
        ?_, rfl, rfl, rfl⟩
      unfold stepCands
      refine List.mem_filterMap.mpr ⟨e, he, ?_⟩
      rw [if_neg h1', if_pos h2']
    · cases hcg

theorem stepChoose_progress {st : List PState} {total target : ℚ} {k : ℕ}
    (hinv : target ≤ total + maxRevenue (st.map toGState) (k + 1))
    (havail : k + 1 ≤ availTrips (st.map toGState)) :
    ∃ c, stepChoose st total target k = some c := by
  cases hg : greedyStep (st.map toGState) with
  | none =>
    rw [greedyStep_eq_none_iff] at hg
    omega
  | some p =>
    obtain ⟨c0, gs'⟩ := p
    obtain ⟨hmem, rfl⟩ := greedyStep_some_spec hg
    obtain ⟨sc, hsc, hpid, hkind, hval⟩ := stepCands_of_greedy hmem
    have hg_max := maxRevenue_succ_of_step hg k
    have happly : (applyChoice st sc.productId sc.kind).map toGState =
        applyCand (st.map toGState) c0.productId c0.kind := by
      rw [toGState_applyChoice, hpid, hkind]
    have hguard : target ≤ total + sc.value +
        maxRevenuePossible (applyChoice st sc.productId sc.kind) k := by
      rw [maxRevenuePossible_def, happly, hval]
      rw [hg_max] at hinv
      linarith
    have hsurv : sc ∈ survivors st total target k :=
      List.mem_filter.mpr ⟨hsc, decide_eq_true hguard⟩
    unfold stepChoose
    cases hp : pickBest (survivors st total target k) with
    | none =>
      rw [pickBest_eq_none_iff] at hp
      rw [hp] at hsurv
      cases hsurv
    | some c => exact ⟨c, rfl⟩

theorem buildGo_succeeds :
    ∀ (k : ℕ) (st : List PState) (total : ℚ) (trips : ℕ) (target : ℚ),
      (st.map (fun e => e.productId)).Nodup →
      target ≤ total + maxRevenue (st.map toGState) k →
      k ≤ availTrips (st.map toGState) →
      ∃ r, buildGo k st total trips target = some r := by
  intro k
  induction k with
  | zero => exact fun st total trips target _ _ _ => ⟨(st, total, trips), rfl⟩
  | succ k ih =>
    intro st total trips target hnd hinv havail
    obtain ⟨c, hc⟩ := stepChoose_progress hinv havail
    obtain ⟨hmem, hguard⟩ := stepChoose_spec hc
    have hproj := toGState_commitChoice st c
    have hinv' : target ≤ (total + c.value) + maxRevenue ((commitChoice st c).map toGState) k := by
      rw [hproj]
      rw [maxRevenuePossible_def, toGState_applyChoice] at hguard
      linarith
    have hnd' : ((commitChoice st c).map (fun e => e.productId)).Nodup := by
      rw [commitChoice_ids]
      exact hnd
    have hndg : ((st.map toGState).map GState.productId).Nodup := by
      rw [toGState_ids]
      exact hnd
    have havail' : k ≤ availTrips ((commitChoice st c).map toGState) := by
      rw [hproj]
      have hge := availTrips_applyCand_ge hndg c.productId c.kind
      omega
    obtain ⟨r, hr⟩ := ih (commitChoice st c) (total + c.value) (trips + 1) target hnd' hinv' havail'
    refine ⟨r, ?_⟩
    simp only [buildGo]
    rw [hc]
    exact hr

theorem optimizeMinTrips_isSome (products : List OptProduct) (target : ℚ)
    (hnd : (products.map fun p => p.productId).Nodup) :
    (optimizeMinTrips products target).isSome = true := by
  unfold optimizeMinTrips
  split
  · rfl
  · split
    · rfl
    · rename_i ht hne
      split
      · rfl
      · rename_i kk hm
        obtain ⟨hk1, hk2, hk3, _⟩ := minTripsNeeded_some_spec (not_le.mp ht) hm
        have hnds : ((initState products).map fun e => e.productId).Nodup :=
          (initState_ids_sublist products).nodup hnd
        obtain ⟨r, hr⟩ := buildGo_succeeds kk (initState products) 0 0 target hnds
          (by rw [zero_add]; exact hk3) hk2
        rw [hr]
        rfl

/-! ### The commit of a chosen candidate -/

theorem commitEntry_of_ne {c : StepCand} {e : PState} (h : e.productId ≠ c.productId) :
    commitEntry c e = e := by
  unfold commitEntry
  rw [if_neg h]

theorem commitEntry_full {c : StepCand} {e : PState} (hpid : e.productId = c.productId)
    (hk : c.kind = TripKind.full) :
    commitEntry c e =
      { e with
        soldL := e.soldL + c.sold
        chosenFull := e.chosenFull + 1
        remainingFull := e.remainingFull - 1 } := by
  unfold commitEntry
  rw [if_pos hpid, hk]

theorem commitEntry_last {c : StepCand} {e : PState} (hpid : e.productId = c.productId)
    (hk : c.kind = TripKind.last) :
    commitEntry c e =
      { e with
        soldL := e.soldL + c.sold
        chosenLast := true
        lastUsed := true } := by
  unfold commitEntry
  rw [if_pos hpid, hk]

theorem commitChoice_cons (e : PState) (st : List PState) (c : StepCand) :
    commitChoice (e :: st) c = commitEntry c e :: commitChoice st c := rfl

theorem commitChoice_eq_self {st : List PState} {c : StepCand}
    (h : ∀ e ∈ st, e.productId ≠ c.productId) : commitChoice st c = st := by
  induction st with
  | nil => rfl
  | cons e st ih =>
    rw [commitChoice_cons, commitEntry_of_ne (h e (List.mem_cons_self e st)),
      ih fun e' he' => h e' (List.mem_cons_of_mem _ he')]

theorem stTrips_cons (e : PState) (st : List PState) :
    stTrips (e :: st) = (e.chosenFull + if e.chosenLast then 1 else 0) + stTrips st := by
  simp [stTrips]

theorem stRevenue_cons (e : PState) (st : List PState) :
    stRevenue (e :: st) = e.soldL * e.pPerL + stRevenue st := by
  simp [stRevenue]

theorem commitEntry_trips {c : StepCand} {e : PState} (hpid : e.productId = c.productId)
    (hlast : c.kind = TripKind.last → e.chosenLast = false) :
    (commitEntry c e).chosenFull + (if (commitEntry c e).chosenLast then 1 else 0) =
      (e.chosenFull + if e.chosenLast then 1 else 0) + 1 := by
  cases hk : c.kind
  · rw [commitEntry_full hpid hk]
    by_cases hcl : e.chosenLast = true <;> simp [hcl]
  · rw [commitEntry_last hpid hk]
    simp [hlast hk]

theorem commitEntry_revenue {c : StepCand} {e : PState} (hpid : e.productId = c.productId)
    (hval : c.value = c.sold * e.pPerL) :
    (commitEntry c e).soldL * (commitEntry c e).pPerL = e.soldL * e.pPerL + c.value := by
  cases hk : c.kind
  · rw [commitEntry_full hpid hk]
    show (e.soldL + c.sold) * e.pPerL = e.soldL * e.pPerL + c.value
    rw [hval]
    ring
  · rw [commitEntry_last hpid hk]
    show (e.soldL + c.sold) * e.pPerL = e.soldL * e.pPerL + c.value
    rw [hval]
    ring

theorem commitChoice_stTrips {c : StepCand} :
    ∀ (st : List PState), (st.map fun e => e.productId).Nodup →
      ∀ {e0 : PState}, e0 ∈ st → c.productId = e0.productId →
        (c.kind = TripKind.last → e0.chosenLast = false) →
        stTrips (commitChoice st c) = stTrips st + 1 := by
  intro st
  induction st with
  | nil =>
    intro _ e0 he0 _ _
    cases he0
  | cons e st ih =>
    intro hnd e0 he0 hpid hlast
    rw [List.map_cons, List.nodup_cons] at hnd
    rw [commitChoice_cons, stTrips_cons, stTrips_cons]
    rcases List.mem_cons.mp he0 with heq | hmem
    · subst heq
      have htail : commitChoice st c = st := by
        apply commitChoice_eq_self
        intro e' he' hne
        apply hnd.1
        have hm : e'.productId ∈ st.map fun x => x.productId :=
          List.mem_map_of_mem _ he'
        rwa [hne, hpid] at hm
      rw [htail, commitEntry_trips hpid.symm hlast]
      omega
    · have hne : e.productId ≠ c.productId := by
        intro hh
        apply hnd.1
        have hm : e0.productId ∈ st.map fun x => x.productId :=
          List.mem_map_of_mem _ hmem
        rw [← hpid] at hm
        rwa [← hh] at hm
      rw [commitEntry_of_ne hne, ih hnd.2 hmem hpid hlast]
      omega

theorem commitChoice_stRevenue {c : StepCand} :
    ∀ (st : List PState), (st.map fun e => e.productId).Nodup →
      ∀ {e0 : PState}, e0 ∈ st → c.productId = e0.productId →
        c.value = c.sold * e0.pPerL →
        stRevenue (commitChoice st c) = stRevenue st + c.value := by
  intro st
  induction st with
  | nil =>
    intro _ e0 he0 _ _
    cases he0
  | cons e st ih =>
    intro hnd e0 he0 hpid hval
    rw [List.map_cons, List.nodup_cons] at hnd
    rw [commitChoice_cons, stRevenue_cons, stRevenue_cons]
    rcases List.mem_cons.mp he0 with heq | hmem
    · subst heq
      have htail : commitChoice st c = st := by
        apply commitChoice_eq_self
        intro e' he' hne
        apply hnd.1
        have hm : e'.productId ∈ st.map fun x => x.productId :=
          List.mem_map_of_mem _ he'
        rwa [hne, hpid] at hm
      rw [htail, commitEntry_revenue hpid.symm hval]
      ring
    · have hne : e.productId ≠ c.productId := by
        intro hh
        apply hnd.1
        have hm : e0.productId ∈ st.map fun x => x.productId :=
          List.mem_map_of_mem _ hmem
        rw [← hpid] at hm
        rwa [← hh] at hm
      rw [commitEntry_of_ne hne, ih hnd.2 hmem hpid hval]
      ring

/-! ### The state invariant -/

theorem remainderOf_nonneg {pr : OptProduct} (hcap : 0 < pr.capPerTripL) :
    0 ≤ remainderOf pr :=
  Int.sub_floor_div_mul_nonneg _ hcap

theorem fullTripsOf_cast {pr : OptProduct} (hcap : 0 < pr.capPerTripL)
    (hstock : pr.minKeepL < pr.stockL) :
    (fullTripsOf pr : ℤ) = ⌊(pr.stockL - pr.minKeepL) / pr.capPerTripL⌋ := by
  unfold fullTripsOf
  rw [Int.toNat_of_nonneg]
  apply Int.floor_nonneg.mpr
  apply div_nonneg _ hcap.le
  linarith

theorem sellable_decomp {pr : OptProduct} (hcap : 0 < pr.capPerTripL)
    (hstock : pr.minKeepL < pr.stockL) :
    pr.stockL - pr.minKeepL = (fullTripsOf pr : ℚ) * pr.capPerTripL + remainderOf pr := by
  have h : (fullTripsOf pr : ℚ) = (⌊(pr.stockL - pr.minKeepL) / pr.capPerTripL⌋ : ℚ) := by
    exact_mod_cast congrArg (fun z : ℤ => (z : ℚ)) (fullTripsOf_cast hcap hstock)
  unfold remainderOf
  rw [h]
  ring

theorem initState_spec {products : List OptProduct} {e : PState} (h : e ∈ initState products) :
    (∃ pr ∈ products, EntryInv pr e) ∧ e.soldL = 0 ∧ e.chosenFull = 0 ∧ e.chosenLast = false ∧
      e.lastUsed = false := by
  unfold initState at h
  rcases List.mem_filterMap.mp h with ⟨pr, hpr, he⟩
  split at he
  · rename_i hcond
    obtain ⟨hen, hcap, hstock⟩ := hcond
    cases he
    refine ⟨⟨pr, hpr, ?_⟩, rfl, rfl, rfl, rfl⟩
    refine ⟨hen, hcap, hstock, rfl, rfl, rfl, rfl, rfl, rfl, rfl, ?_, ⟨?_, rfl⟩, ?_⟩
    · show 0 + (⌊(pr.stockL - pr.minKeepL) / pr.capPerTripL⌋).toNat = fullTripsOf pr
      rw [Nat.zero_add]
      rfl
    · show (0 : ℚ) = (0 : ℕ) * pr.capPerTripL + (if false = true then remainderOf pr else 0)
      simp
    · intro hcl
      cases hcl
  · cases he

theorem initState_state_inv (products : List OptProduct) :
    StateInv products (initState products) := fun e he => (initState_spec he).1

theorem initState_stTrips (products : List OptProduct) : stTrips (initState products) = 0 := by
  unfold stTrips
  rw [List.sum_eq_zero_iff]
  intro x hx
  rcases List.mem_map.mp hx with ⟨e, he, rfl⟩
  obtain ⟨_, _, h1, h2, _⟩ := initState_spec he
  rw [h1, h2]
  rfl

theorem initState_stRevenue (products : List OptProduct) : stRevenue (initState products) = 0 := by
  unfold stRevenue
  rw [List.sum_eq_zero]
  intro x hx
  rcases List.mem_map.mp hx with ⟨e, he, rfl⟩
  obtain ⟨_, h1, _⟩ := initState_spec he
  rw [h1]
  ring

theorem commitEntry_entry_inv {pr : OptProduct} {e : PState} {c : StepCand}
    (hei : EntryInv pr e) (hpid : e.productId = c.productId)
    (hbranch :
      (c.kind = TripKind.full ∧ 0 < e.remainingFull ∧ c.sold = e.cap ∧
          c.value = e.cap * e.pPerL ∧ c.remainingStockAfter = e.stockL - e.soldL - e.cap) ∨
        (c.kind = TripKind.last ∧ e.remainingFull = 0 ∧ 0 < e.remL ∧ e.lastUsed = false ∧
          c.sold = e.remL ∧ c.value = e.remL * e.pPerL ∧
          c.remainingStockAfter = e.stockL - e.soldL - e.remL)) :
    EntryInv pr (commitEntry c e) := by
  obtain ⟨hen, hcap, hstock, hid, hstL, hmkL, hcapE, hp, hsell, hrem, hsum, ⟨hsold, hcl⟩, hclrf⟩ :=
    hei
  rcases hbranch with ⟨hk, hrf, hsoldc, hvalc, _⟩ | ⟨hk, hrf0, hremPos, hlu, hsoldc, hvalc, _⟩
  · rw [commitEntry_full hpid hk]
    refine ⟨hen, hcap, hstock, hid, hstL, hmkL, hcapE, hp, hsell, hrem, ?_, ⟨?_, ?_⟩, ?_⟩
    · show e.chosenFull + 1 + (e.remainingFull - 1) = fullTripsOf pr
      omega
    · show e.soldL + c.sold =
        ((e.chosenFull + 1 : ℕ) : ℚ) * e.cap + (if e.chosenLast then e.remL else 0)
      rw [hsoldc, hsold]
      push_cast
      ring
    · show e.chosenLast = e.lastUsed
      exact hcl
    · show e.chosenLast = true → e.remainingFull - 1 = 0
      intro hcl2
      have := hclrf hcl2
      omega
  · rw [commitEntry_last hpid hk]
    have hclf : e.chosenLast = false := by rw [hcl, hlu]
    refine ⟨hen, hcap, hstock, hid, hstL, hmkL, hcapE, hp, hsell, hrem, hsum, ⟨?_, rfl⟩, ?_⟩
    · show e.soldL + c.sold = (e.chosenFull : ℚ) * e.cap + (if true = true then e.remL else 0)
      rw [hsoldc, hsold, hclf]
      simp
    · intro _
      show e.remainingFull = 0
      exact hrf0

theorem commitChoice_state_inv {products : List OptProduct} {st : List PState} {c : StepCand}
    (hnd : (st.map fun e => e.productId).Nodup)
    (hc : c ∈ stepCands st) (hinv : StateInv products st) :
    StateInv products (commitChoice st c) := by
  obtain ⟨e0, he0, hpid0, hbranch⟩ := mem_stepCands hc
  intro e' he'
  rcases List.mem_map.mp he' with ⟨e, he, rfl⟩
  obtain ⟨pr, hpr, hei⟩ := hinv e he
  by_cases h : e.productId = c.productId
  · have hee : e = e0 :=
      List.inj_on_of_nodup_map hnd he he0 (by rw [h, hpid0])
    refine ⟨pr, hpr, ?_⟩
    apply commitEntry_entry_inv hei h
    rw [hee]
    exact hbranch
  · rw [commitEntry_of_ne h]
    exact ⟨pr, hpr, hei⟩

/-! ### Invariants along the whole construction -/

theorem buildGo_preserves {products : List OptProduct} :
    ∀ (k : ℕ) (st : List PState) (total : ℚ) (trips : ℕ) (target : ℚ) (st' : List PState)
      (total' : ℚ) (trips' : ℕ),
      (st.map fun e => e.productId).Nodup →
      StateInv products st →
      buildGo k st total trips target = some (st', total', trips') →
      StateInv products st' ∧ ((st'.map fun e => e.productId).Nodup) ∧
        stTrips st' + trips = stTrips st + trips' ∧
        stRevenue st' + total = stRevenue st + total' := by
  intro k
  induction k with
  | zero =>
    intro st total trips target st' total' trips' hnd hinv h
    simp only [buildGo] at h
    cases h
    exact ⟨hinv, hnd, rfl, rfl⟩
  | succ k ih =>
    intro st total trips target st' total' trips' hnd hinv h
    simp only [buildGo] at h
    cases hc : stepChoose st total target k with
    | none => rw [hc] at h; cases h
    | some c =>
      rw [hc] at h
      have hcmem := (stepChoose_spec hc).1
      obtain ⟨e0, he0, hpid0, hbranch⟩ := mem_stepCands hcmem
      obtain ⟨pr, hpr, hei⟩ := hinv e0 he0
      obtain ⟨_, _, _, _, _, _, _, _, _, _, _, ⟨_, hcl⟩, _⟩ := hei
      have hlast : c.kind = TripKind.last → e0.chosenLast = false := by
        intro hk
        rcases hbranch with ⟨hk2, _⟩ | ⟨_, _, _, hlu, _⟩
        · rw [hk] at hk2; cases hk2
        · rw [hcl, hlu]
      have hval : c.value = c.sold * e0.pPerL := by
        rcases hbranch with ⟨_, _, hs, hv, _⟩ | ⟨_, _, _, _, hs, hv, _⟩ <;> rw [hs, hv]
      have hnd' : ((commitChoice st c).map fun e => e.productId).Nodup := by
        rw [commitChoice_ids]
        exact hnd
      have hinv' := commitChoice_state_inv hnd hcmem hinv
      obtain ⟨i1, i2, i3, i4⟩ :=
        ih (commitChoice st c) (total + c.value) (trips + 1) target st' total' trips' hnd' hinv' h
      refine ⟨i1, i2, ?_, ?_⟩
      · rw [commitChoice_stTrips st hnd he0 hpid0 hlast] at i3
        omega
      · rw [commitChoice_stRevenue st hnd he0 hpid0 hval] at i4
        linarith

/-! ### Plan lines -/

theorem planTrips_cons (l : TripPlanLine) (ls : List TripPlanLine) :
    planTrips (l :: ls) = (l.fullTrips + if l.lastPartialUsed then 1 else 0) + planTrips ls := by
  simp [planTrips]

theorem planRevenue_cons (l : TripPlanLine) (ls : List TripPlanLine) :
    planRevenue (l :: ls) = l.revenueEur + planRevenue ls := by
  simp [planRevenue]

theorem buildLines_cons_skip {e : PState} (st : List PState)
    (h : e.chosenFull = 0 ∧ e.chosenLast = false) :
    buildLines (e :: st) = buildLines st := by
  unfold buildLines
  rw [List.filterMap_cons, if_pos h]

theorem buildLines_cons_keep {e : PState} (st : List PState)
    (h : ¬(e.chosenFull = 0 ∧ e.chosenLast = false)) :
    buildLines (e :: st) =
      ⟨e.productId, e.chosenFull, e.chosenLast, e.soldL, e.soldL * e.pPerL⟩ :: buildLines st := by
  unfold buildLines
  rw [List.filterMap_cons, if_neg h]

theorem planTrips_buildLines : ∀ st : List PState, planTrips (buildLines st) = stTrips st := by
  intro st
  induction st with
  | nil => rfl
  | cons e st ih =>
    rw [stTrips_cons]
    by_cases h : e.chosenFull = 0 ∧ e.chosenLast = false
    · rw [buildLines_cons_skip st h, ih, h.1, h.2]
      simp
    · rw [buildLines_cons_keep st h, planTrips_cons, ih]

theorem planRevenue_buildLines :
    ∀ st : List PState, (∀ e ∈ st, e.chosenFull = 0 ∧ e.chosenLast = false → e.soldL = 0) →
      planRevenue (buildLines st) = stRevenue st := by
  intro st
  induction st with
  | nil => exact fun _ => rfl
  | cons e st ih =>
    intro hz
    rw [stRevenue_cons]
    by_cases h : e.chosenFull = 0 ∧ e.chosenLast = false
    · rw [buildLines_cons_skip st h, ih fun e' he' => hz e' (List.mem_cons_of_mem _ he'),
        hz e (List.mem_cons_self e st) h]
      ring
    · rw [buildLines_cons_keep st h, planRevenue_cons,
        ih fun e' he' => hz e' (List.mem_cons_of_mem _ he')]

theorem mem_buildLines {st : List PState} {l : TripPlanLine} (h : l ∈ buildLines st) :
    ∃ e ∈ st, ¬(e.chosenFull = 0 ∧ e.chosenLast = false) ∧
      l = ⟨e.productId, e.chosenFull, e.chosenLast, e.soldL, e.soldL * e.pPerL⟩ := by
  unfold buildLines at h
  rcases List.mem_filterMap.mp h with ⟨e, he, hc⟩
  split at hc
  · cases hc
  · rename_i hcond
    cases hc
    exact ⟨e, he, hcond, rfl⟩

theorem sortLines_perm (lines : List TripPlanLine) : List.Perm (sortLines lines) lines :=
  List.perm_insertionSort _ _

theorem mem_sortLines {lines : List TripPlanLine} {l : TripPlanLine} :
    l ∈ sortLines lines ↔ l ∈ lines :=
  (sortLines_perm lines).mem_iff

theorem planTrips_sortLines (lines : List TripPlanLine) :
    planTrips (sortLines lines) = planTrips lines := by
  unfold planTrips
  exact List.Perm.sum_eq (List.Perm.map _ (sortLines_perm lines))

theorem planRevenue_sortLines (lines : List TripPlanLine) :
    planRevenue (sortLines lines) = planRevenue lines := by
  unfold planRevenue
  exact List.Perm.sum_eq (List.Perm.map _ (sortLines_perm lines))

/-! ### Order facts for identifier comparison -/

theorem pidLt_iff (s t : String) : pidLt s t ↔ List.Lex (· < ·) s.data t.data :=
  List.lt_iff_lex_lt s.data t.data

theorem pidLt_trans {a b c : String} (h1 : pidLt a b) (h2 : pidLt b c) : pidLt a c := by
  rw [pidLt_iff] at h1 h2 ⊢
  exact trans_of (List.Lex ((· < ·) : Char → Char → Prop)) h1 h2

theorem pidLt_irrefl (s : String) : ¬ pidLt s s := by
  rw [pidLt_iff]
  exact irrefl_of (List.Lex ((· < ·) : Char → Char → Prop)) s.data

theorem pidLt_trichotomy (s t : String) : pidLt s t ∨ s = t ∨ pidLt t s := by
  rcases trichotomous_of (List.Lex ((· < ·) : Char → Char → Prop)) s.data t.data with h | h | h
  · exact Or.inl ((pidLt_iff s t).mpr h)
  · exact Or.inr (Or.inl (congrArg String.mk h))
  · exact Or.inr (Or.inr ((pidLt_iff t s).mpr h))

/-! ### The selection key order of the construction loop -/

theorem stepKeyLt_irrefl (a : StepCand) : ¬ stepKeyLt a a := by
  intro h
  rcases h with h | ⟨_, h | ⟨_, h⟩⟩
  · exact lt_irrefl _ h
  · exact lt_irrefl _ h
  · exact pidLt_irrefl _ h

theorem stepKeyLt_trans {a b c : StepCand} (h1 : stepKeyLt a b) (h2 : stepKeyLt b c) :
    stepKeyLt a c := by
  unfold stepKeyLt at *
  rcases h1 with h1 | ⟨e1, h1⟩ <;> rcases h2 with h2 | ⟨e2, h2⟩
  · exact Or.inl (lt_trans h1 h2)
  · exact Or.inl (by rw [← e2]; exact h1)
  · exact Or.inl (by rw [e1]; exact h2)
  · refine Or.inr ⟨e1.trans e2, ?_⟩
    rcases h1 with h1 | ⟨f1, h1⟩ <;> rcases h2 with h2 | ⟨f2, h2⟩
    · exact Or.inl (lt_trans h1 h2)
    · exact Or.inl (by rw [← f2]; exact h1)
    · exact Or.inl (by rw [f1]; exact h2)
    · exact Or.inr ⟨f1.trans f2, pidLt_trans h1 h2⟩

theorem stepKeyLt_total (a b : StepCand) :
    stepKeyLt a b ∨ stepKeyLt b a ∨
      (a.remainingStockAfter = b.remainingStockAfter ∧ a.value = b.value ∧
        a.productId = b.productId) := by
  unfold stepKeyLt
  rcases lt_trichotomy a.remainingStockAfter b.remainingStockAfter with h | h | h
  · exact Or.inl (Or.inl h)
  · rcases lt_trichotomy a.value b.value with h2 | h2 | h2
    · exact Or.inl (Or.inr ⟨h, Or.inl h2⟩)
    · rcases pidLt_trichotomy a.productId b.productId with h3 | h3 | h3
      · exact Or.inl (Or.inr ⟨h, Or.inr ⟨h2, h3⟩⟩)
      · exact Or.inr (Or.inr ⟨h, h2, h3⟩)
      · exact Or.inr (Or.inl (Or.inr ⟨h.symm, Or.inr ⟨h2.symm, h3⟩⟩))
    · exact Or.inr (Or.inl (Or.inr ⟨h.symm, Or.inl h2⟩))
  · exact Or.inr (Or.inl (Or.inl h))

theorem stepKeyLt_of_eq_right {r b c : StepCand}
    (he : b.remainingStockAfter = c.remainingStockAfter ∧ b.value = c.value ∧
      b.productId = c.productId)
    (h : stepKeyLt r c) : stepKeyLt r b := by
  unfold stepKeyLt at *
  obtain ⟨e1, e2, e3⟩ := he
  rw [e1, e2, e3]
  exact h

theorem pickStep_foldl_max :
    ∀ (l : List StepCand) (b r : StepCand),
      List.foldl pickStep (some b) l = some r →
      (¬ stepKeyLt r b) ∧ ∀ c' ∈ l, ¬ stepKeyLt r c' := by
  intro l
  induction l with
  | nil =>
    intro b r h
    cases h
    exact ⟨stepKeyLt_irrefl _, fun c' hc' => absurd hc' (List.not_mem_nil c')⟩
  | cons c l ih =>
    intro b r h
    simp only [List.foldl_cons] at h
    by_cases hbc : stepKeyLt b c
    · rw [show pickStep (some b) c = some c from by simp [pickStep, hbc]] at h
      obtain ⟨h1, h2⟩ := ih c r h
      refine ⟨?_, ?_⟩
      · intro hrb
        exact h1 (stepKeyLt_trans hrb hbc)
      · intro c' hc'
        rcases List.mem_cons.mp hc' with heq | hmem
        · rw [heq]
          exact h1
        · exact h2 c' hmem
    · rw [show pickStep (some b) c = some b from by simp [pickStep, hbc]] at h
      obtain ⟨h1, h2⟩ := ih b r h
      refine ⟨h1, ?_⟩
      intro c' hc'
      rcases List.mem_cons.mp hc' with heq | hmem
      · rw [heq]
        intro hrc
        rcases stepKeyLt_total b c with hbc' | hcb | heqk
        · exact hbc hbc'
        · exact h1 (stepKeyLt_trans hrc hcb)
        · exact h1 (stepKeyLt_of_eq_right heqk hrc)
      · exact h2 c' hmem

theorem pickBest_max {cs : List StepCand} {c : StepCand} (h : pickBest cs = some c) :
    ∀ c' ∈ cs, ¬ stepKeyLt c c' := by
  cases cs with
  | nil => simp [pickBest] at h
  | cons c0 l =>
    simp only [pickBest, List.foldl_cons] at h
    rw [show pickStep none c0 = some c0 from rfl] at h
    obtain ⟨h1, h2⟩ := pickStep_foldl_max l c0 c h
    intro c' hc'
    rcases List.mem_cons.mp hc' with heq | hmem
    · rw [heq]
      exact h1
    · exact h2 c' hmem

theorem stepCands_ids_sublist (st : List PState) :
    List.Sublist ((stepCands st).map fun c => c.productId) (st.map fun e => e.productId) := by
  induction st with
  | nil => simp [stepCands]
  | cons e st ih =>
    simp only [stepCands, List.filterMap_cons] at *
    split
    · simp only [List.map_cons]
      exact List.Sublist.cons _ ih
    · rename_i val heq
      split at heq
      · cases heq
        simp only [List.map_cons]
        exact List.Sublist.cons₂ _ ih
      · split at heq
        · cases heq
          simp only [List.map_cons]
          exact List.Sublist.cons₂ _ ih
        · cases heq

theorem survivors_ids_nodup {st : List PState} (hnd : (st.map fun e => e.productId).Nodup)
    (total target : ℚ) (tla : ℕ) :
    ((survivors st total target tla).map fun c => c.productId).Nodup := by
  have h1 : List.Sublist (survivors st total target tla) (stepCands st) :=
    List.filter_sublist _
  exact ((h1.map fun c => c.productId).trans (stepCands_ids_sublist st)).nodup hnd

theorem stepChoose_tiebreak {st : List PState} {total target : ℚ} {tla : ℕ} {c : StepCand}
    (hnd : (st.map fun e => e.productId).Nodup)
    (h : stepChoose st total target tla = some c) :
    ∀ c' ∈ survivors st total target tla, c' ≠ c →
      c'.remainingStockAfter = c.remainingStockAfter → c'.value = c.value →
      pidLt c'.productId c.productId := by
  intro c' hc' hne hrsa hval
  have hmax := pickBest_max h c' hc'
  rcases pidLt_trichotomy c'.productId c.productId with h1 | h1 | h1
  · exact h1
  · exfalso
    apply hne
    have hcs : c ∈ survivors st total target tla := pickBest_mem h
    exact List.inj_on_of_nodup_map (survivors_ids_nodup hnd total target tla) hc' hcs h1
  · exfalso
    apply hmax
    exact Or.inr ⟨hrsa.symm, Or.inr ⟨hval.symm, h1⟩⟩

/-! ### Closed forms for a single product with unit capacity and no remainder

These let theorems evaluate the greedy helpers on states offering more
than `10 ^ 9` trips, where direct computation is impossible. -/

theorem singleg_step (r : ℕ) :
    greedyStep [⟨"a", r + 1, 0, false, 1, 1⟩] =
      some (⟨1 * 1, "a", TripKind.full⟩, [⟨"a", r, 0, false, 1, 1⟩]) := by
  have hcand : candidateForMaxRevenue ⟨"a", r + 1, 0, false, 1, 1⟩ =
      some ⟨1 * 1, "a", TripKind.full⟩ := by
    unfold candidateForMaxRevenue
    rw [if_pos (Nat.succ_pos r)]
  have hcands : candsOf [⟨"a", r + 1, 0, false, 1, 1⟩] = [⟨1 * 1, "a", TripKind.full⟩] := by
    unfold candsOf
    rw [List.filterMap_cons, hcand]
    rfl
  unfold greedyStep
  rw [hcands]
  rfl

theorem singleg_none :
    greedyStep [(⟨"a", 0, 0, false, 1, 1⟩ : GState)] = none := by decide

theorem avail_single (r : ℕ) : availTrips [⟨"a", r, 0, false, 1, 1⟩] = r := by
  simp [availTrips, entryAvail]

theorem maxRevenue_single :
    ∀ (n r : ℕ), maxRevenue [⟨"a", r, 0, false, 1, 1⟩] n = ((min n r : ℕ) : ℚ) := by
  intro n
  induction n with
  | zero =>
    intro r
    simp [maxRevenue]
  | succ n ih =>
    intro r
    cases r with
    | zero =>
      rw [maxRevenue_succ_of_none singleg_none]
      simp
    | succ r =>
      rw [maxRevenue_succ_of_step (singleg_step r), ih r]
      have hmin : min (n + 1) (r + 1) = min n r + 1 := by omega
      rw [hmin]
      push_cast
      ring

theorem minTripsGo_single_none :
    ∀ (r fuel : ℕ) (total : ℚ) (trips : ℕ) (target : ℚ),
      r ≤ fuel → total + (r : ℚ) < target →
      minTripsGo fuel [⟨"a", r, 0, false, 1, 1⟩] total trips target = none := by
  intro r
  induction r with
  | zero =>
    intro fuel total trips target hf ht
    have htot : ¬ target ≤ total := by
      push_cast at ht
      linarith
    cases fuel with
    | zero => simp [minTripsGo, htot]
    | succ f => simp [minTripsGo, htot, singleg_none]
  | succ r ih =>
    intro fuel total trips target hf ht
    cases fuel with
    | zero => omega
    | succ f =>
      have htot : ¬ target ≤ total := by
        have hr : (0 : ℚ) ≤ ((r + 1 : ℕ) : ℚ) := Nat.cast_nonneg _
        push_neg
        linarith
      simp only [minTripsGo, htot, if_false, singleg_step r]
      apply ih f (total + 1 * 1) (trips + 1) target (by omega)
      push_cast at ht ⊢
      linarith

/-! ### Evaluation of the optimizer on a product offering more than `10 ^ 9` trips -/

theorem bigInit :
    initState [⟨"a", 1000000001, 0, 1, 1000, true⟩] =
      [⟨"a", 1000000001, 0, 1, 1, 1000000001, 1000000001, 0, false, 0, 0, false⟩] := by
  decide

theorem bigProj :
    (initState [⟨"a", 1000000001, 0, 1, 1000, true⟩]).map toGState =
      [⟨"a", 1000000001, 0, false, 1, 1⟩] := by
  decide

theorem bigMinTrips :
    minTripsNeeded (initState [⟨"a", 1000000001, 0, 1, 1000, true⟩]) 1000000002 = none := by
  unfold minTripsNeeded
  rw [if_neg (by norm_num : ¬(1000000002 : ℚ) ≤ 0), bigProj, avail_single]
  apply minTripsGo_single_none 1000000001 1000000001 0 0 1000000002 le_rfl
  push_cast
  norm_num

theorem bigOptimize :
    optimizeMinTrips [⟨"a", 1000000001, 0, 1, 1000, true⟩] 1000000002 =
      some ⟨false, 1000000002,
        maxRevenuePossible (initState [⟨"a", 1000000001, 0, 1, 1000, true⟩]) (10 ^ 9), 0, [],
        some "objective.plan_info.not_reached_quota"⟩ := by
  unfold optimizeMinTrips
  rw [if_neg (by norm_num : ¬(1000000002 : ℚ) ≤ 0),
    if_neg (by decide : ¬ initState [⟨"a", 1000000001, 0, 1, 1000, true⟩] = []),
    bigMinTrips]

theorem bigRevenueCapped :
    maxRevenuePossible (initState [⟨"a", 1000000001, 0, 1, 1000, true⟩]) (10 ^ 9) =
      1000000000 := by
  rw [maxRevenuePossible_def, bigProj, maxRevenue_single]
  norm_num

theorem bigTrueMax :
    maxRevenueUnlimited (initState [⟨"a", 1000000001, 0, 1, 1000, true⟩]) = 1000000001 := by
  unfold maxRevenueUnlimited maxRevenueExhaustive
  rw [bigProj, avail_single, maxRevenue_single]
  norm_num

/-! ### The claims -/

/-- C1: whenever `optimize_min_trips` returns a feasible plan, its total
revenue meets the target; moreover every construction step's chosen
candidate satisfies the feasibility guard `accumulated + value +
max_future(trips_left_after) ≥ target_eur`. -/
theorem c1_feasible_meets_target :
    (∀ (products : List OptProduct) (target : ℚ) (P : TripPlan),
        optimizeMinTrips products target = some P → P.feasible = true →
        target ≤ P.totalRevenueEur) ∧
      (∀ (st : List PState) (total target : ℚ) (tla : ℕ) (c : StepCand),
        stepChoose st total target tla = some c →
        target ≤ total + c.value +
          maxRevenuePossible (applyChoice st c.productId c.kind) tla) := by
  constructor
  · intro products target P h hf
    obtain ⟨hpos, hne, kk, st', total, trips, hm, hb, hP⟩ := optimize_feasible_spec h hf
    obtain ⟨hk1, _, _, _⟩ := minTripsNeeded_some_spec hpos hm
    have hge := buildGo_total_ge_target kk (initState products) 0 0 target st' total trips hk1 hb
    rw [hP]
    exact hge
  · intro st total target tla c h
    exact (stepChoose_spec h).2

/-- Witness for C1 at a concrete input (one product, stock 100, cap 30,
price 1000 per 1000, target 50). -/
theorem c1_witness :
    optimizeMinTrips [⟨"a", 100, 0, 30, 1000, true⟩] 50 =
        some ⟨true, 50, 60, 2, [⟨"a", 2, false, 60, 60⟩], none⟩ ∧
      (50 : ℚ) ≤ (60 : ℚ) := by
  refine ⟨by decide, ?_⟩
  exact c1_feasible_meets_target.1 [⟨"a", 100, 0, 30, 1000, true⟩] 50
    ⟨true, 50, 60, 2, [⟨"a", 2, false, 60, 60⟩], none⟩ (by decide) rfl

/-- C2: a feasible plan's trip count `K` is minimal: the greedy
highest-value-first bound on the initial state reaches strictly less than
the target with `K - 1` trips, while `K` trips suffice. -/
theorem c2_trip_count_minimal :
    ∀ (products : List OptProduct) (target : ℚ) (P : TripPlan),
      optimizeMinTrips products target = some P → P.feasible = true →
      1 ≤ P.totalTrips ∧
        maxRevenuePossible (initState products) (P.totalTrips - 1) < target ∧
        target ≤ maxRevenuePossible (initState products) P.totalTrips := by
  intro products target P h hf
  obtain ⟨hpos, hne, kk, st', total, trips, hm, hb, hP⟩ := optimize_feasible_spec h hf
  obtain ⟨hk1, hk2, hk3, hk4⟩ := minTripsNeeded_some_spec hpos hm
  have htr : trips = kk := by
    have := buildGo_trips kk (initState products) 0 0 target st' total trips hb
    omega
  have hPt : P.totalTrips = kk := by
    rw [hP]
    exact htr
  rw [hPt]
  refine ⟨hk1, ?_, ?_⟩
  · rw [maxRevenuePossible_def]
    exact hk4 (kk - 1) (by omega)
  · rw [maxRevenuePossible_def]
    exact hk3

/-- Witness for C2 at a concrete input: the plan uses 2 trips, 1 trip
reaches only 30 < 50 while 2 trips reach 60 ≥ 50. -/
theorem c2_witness :
    maxRevenuePossible (initState [⟨"a", 100, 0, 30, 1000, true⟩]) 1 < 50 ∧
      (50 : ℚ) ≤ maxRevenuePossible (initState [⟨"a", 100, 0, 30, 1000, true⟩]) 2 := by
  have h := c2_trip_count_minimal [⟨"a", 100, 0, 30, 1000, true⟩] 50
    ⟨true, 50, 60, 2, [⟨"a", 2, false, 60, 60⟩], none⟩ (by decide) rfl
  exact ⟨h.2.1, h.2.2⟩

/-- Counterexample to C3 as stated: with one eligible product offering
`10 ^ 9 + 1` full trips and an unreachable target, the optimizer returns
`total_revenue_eur = 10 ^ 9` (the source caps the "unlimited" greedy run
at `10 ** 9` trips), which differs from the true maximum obtainable
revenue `10 ^ 9 + 1`. -/
theorem c3_counterexample :
    optimizeMinTrips [⟨"a", 1000000001, 0, 1, 1000, true⟩] 1000000002 =
        some ⟨false, 1000000002, 1000000000, 0, [],
          some "objective.plan_info.not_reached_quota"⟩ ∧
      (0 : ℚ) < 1000000002 ∧
      initState [⟨"a", 1000000001, 0, 1, 1000, true⟩] ≠ [] ∧
      maxRevenueUnlimited (initState [⟨"a", 1000000001, 0, 1, 1000, true⟩]) < 1000000002 ∧
      (1000000000 : ℚ) ≠
        maxRevenueUnlimited (initState [⟨"a", 1000000001, 0, 1, 1000, true⟩]) := by
  refine ⟨?_, by norm_num, by decide, ?_, ?_⟩
  · rw [bigOptimize, bigRevenueCapped]
  · rw [bigTrueMax]
    norm_num
  · rw [bigTrueMax]
    norm_num

/-- C3 as amended: under the claim's hypotheses (positive target, at least
one eligible product, nonnegative prices, target above the true maximum)
the optimizer returns infeasible with reason `QuotaUnreachable`, zero
trips, and `total_revenue_eur` equal to the greedy revenue capped at
`10 ^ 9` trips — which equals the true unlimited maximum whenever the
state offers at most `10 ^ 9` trips. -/
theorem c3_amended :
    ∀ (products : List OptProduct) (target : ℚ) (P : TripPlan),
      0 < target →
      optimizeMinTrips products target = some P →
      initState products ≠ [] →
      NonnegValues ((initState products).map toGState) →
      maxRevenueUnlimited (initState products) < target →
      P.feasible = false ∧ P.reason = some "objective.plan_info.not_reached_quota" ∧
        P.totalTrips = 0 ∧
        P.totalRevenueEur = maxRevenuePossible (initState products) (10 ^ 9) ∧
        (availTrips ((initState products).map toGState) ≤ 10 ^ 9 →
          P.totalRevenueEur = maxRevenueUnlimited (initState products)) := by
  intro products target P hpos h hne hnn hmax
  have hm : minTripsNeeded (initState products) target = none :=
    minTripsNeeded_eq_none hpos hnn hmax
  unfold optimizeMinTrips at h
  rw [if_neg (not_le.mpr hpos), if_neg hne, hm] at h
  cases h
  refine ⟨rfl, rfl, rfl, rfl, ?_⟩
  intro hcap
  show maxRevenuePossible (initState products) (10 ^ 9) = maxRevenueUnlimited (initState products)
  rw [maxRevenuePossible_def]
  unfold maxRevenueUnlimited
  exact maxRevenue_eq_exhaustive hcap

/-- Witness for the amended C3 at a concrete input (stock 100, cap 30,
price 1000 per 1000, target 1000 > maximum 100). -/
theorem c3_witness :
    maxRevenueUnlimited (initState [⟨"a", 100, 0, 30, 1000, true⟩]) < 1000 ∧
      maxRevenuePossible (initState [⟨"a", 100, 0, 30, 1000, true⟩]) (10 ^ 9) =
        maxRevenueUnlimited (initState [⟨"a", 100, 0, 30, 1000, true⟩]) := by
  have hmax : maxRevenueUnlimited (initState [⟨"a", 100, 0, 30, 1000, true⟩]) < 1000 := by
    decide
  refine ⟨hmax, ?_⟩
  have hopt : optimizeMinTrips [⟨"a", 100, 0, 30, 1000, true⟩] 1000 =
      some ⟨false, 1000,
        maxRevenuePossible (initState [⟨"a", 100, 0, 30, 1000, true⟩]) (10 ^ 9), 0, [],
        some "objective.plan_info.not_reached_quota"⟩ := by
    unfold optimizeMinTrips
    rw [if_neg (by norm_num : ¬(1000 : ℚ) ≤ 0),
      if_neg (by decide : ¬ initState [⟨"a", 100, 0, 30, 1000, true⟩] = []),
      (by decide : minTripsNeeded (initState [⟨"a", 100, 0, 30, 1000, true⟩]) 1000 = none)]
  have h := c3_amended [⟨"a", 100, 0, 30, 1000, true⟩] 1000
    ⟨false, 1000, maxRevenuePossible (initState [⟨"a", 100, 0, 30, 1000, true⟩]) (10 ^ 9), 0,
      [], some "objective.plan_info.not_reached_quota"⟩
    (by norm_num) hopt (by decide) (by unfold NonnegValues; decide) hmax
  exact h.2.2.2.2 (by decide)

/-- Counterexample to C4 as stated: an infeasible plan whose reason is
"quota not reachable" (not "no products") carries the nonzero maximum
obtainable revenue, not 0. -/
theorem c4_counterexample :
    optimizeMinTrips [⟨"a", 100, 0, 30, 1000, true⟩] 1000 =
        some ⟨false, 1000, 100, 0, [], some "objective.plan_info.not_reached_quota"⟩ ∧
      (some "objective.plan_info.not_reached_quota" ≠
        some "objective.plan_info.no_products") ∧
      (100 : ℚ) ≠ 0 := by
  refine ⟨by decide, by decide, by norm_num⟩

/-- C4 as amended: an infeasible plan's `total_revenue_eur` is 0 when the
reason is "no target" or "no eligible products"; when the reason is
"quota not reachable" it instead equals the greedy maximum obtainable
revenue capped at `10 ^ 9` trips, which is nonzero in general. -/
theorem c4_amended :
    ∀ (products : List OptProduct) (target : ℚ) (P : TripPlan),
      optimizeMinTrips products target = some P → P.feasible = false →
      ((P.reason = some "objective.plan_info.no_plan" ∨
          P.reason = some "objective.plan_info.no_products") → P.totalRevenueEur = 0) ∧
        (P.reason = some "objective.plan_info.not_reached_quota" →
          P.totalRevenueEur = maxRevenuePossible (initState products) (10 ^ 9)) := by
  intro products target P h hf
  obtain ⟨_, _, _, hcase⟩ := optimize_infeasible_spec h hf
  rcases hcase with ⟨hr, _, hrev⟩ | ⟨hr, _, hrev⟩ | ⟨hr, _, _, _, hrev⟩
  · refine ⟨fun _ => hrev, fun h2 => ?_⟩
    rw [hr] at h2
    exact absurd h2 (by decide)
  · refine ⟨fun _ => hrev, fun h2 => ?_⟩
    rw [hr] at h2
    exact absurd h2 (by decide)
  · refine ⟨fun h2 => ?_, fun _ => hrev⟩
    rcases h2 with h2 | h2 <;> rw [hr] at h2 <;> exact absurd h2 (by decide)

/-- Witness for the amended C4: a "no target" plan has revenue 0, and a
"quota not reachable" plan carries the capped greedy maximum. -/
theorem c4_witness :
    (⟨false, 0, 0, 0, [], some "objective.plan_info.no_plan"⟩ : TripPlan).totalRevenueEur = 0 ∧
      (⟨false, 1000, 100, 0, [],
          some "objective.plan_info.not_reached_quota"⟩ : TripPlan).totalRevenueEur =
        maxRevenuePossible (initState [⟨"a", 100, 0, 30, 1000, true⟩]) (10 ^ 9) := by
  constructor
  · exact (c4_amended [] 0 ⟨false, 0, 0, 0, [], some "objective.plan_info.no_plan"⟩
      (by decide) rfl).1 (Or.inl rfl)
  · exact (c4_amended [⟨"a", 100, 0, 30, 1000, true⟩] 1000
      ⟨false, 1000, 100, 0, [], some "objective.plan_info.not_reached_quota"⟩
      (by decide) rfl).2 rfl

/-- Counterexample to C5 as stated: with two products "a" and "b" tied on
remaining stock and value among the surviving candidates, the code
commits "b" — the lexicographically largest product id — not the
smallest. -/
theorem c5_counterexample :
    (⟨"a", TripKind.full, 30, 30, 0⟩ : StepCand) ∈
        survivors (initState [⟨"a", 30, 0, 30, 1000, true⟩, ⟨"b", 30, 0, 30, 1000, true⟩])
          0 30 0 ∧
      (⟨"b", TripKind.full, 30, 30, 0⟩ : StepCand) ∈
        survivors (initState [⟨"a", 30, 0, 30, 1000, true⟩, ⟨"b", 30, 0, 30, 1000, true⟩])
          0 30 0 ∧
      stepChoose (initState [⟨"a", 30, 0, 30, 1000, true⟩, ⟨"b", 30, 0, 30, 1000, true⟩])
          0 30 0 = some ⟨"b", TripKind.full, 30, 30, 0⟩ ∧
      optimizeMinTrips [⟨"a", 30, 0, 30, 1000, true⟩, ⟨"b", 30, 0, 30, 1000, true⟩] 30 =
        some ⟨true, 30, 30, 1, [⟨"b", 1, false, 30, 30⟩], none⟩ ∧
      pidLt "a" "b" := by
  exact ⟨by decide, by decide, by decide, by decide, by decide⟩

/-- C5 as amended: among surviving candidates tied on both remaining
stock and value, the one with the lexicographically LARGEST (descending)
product id is committed (the code maximizes the tuple
`(remaining_stock_after, value, product_id)`); the chosen candidate is a
deterministic function of the input, so identical inputs yield the same
plan. -/
theorem c5_amended :
    ∀ (st : List PState) (total target : ℚ) (tla : ℕ) (c : StepCand),
      (st.map fun e => e.productId).Nodup →
      stepChoose st total target tla = some c →
      c ∈ survivors st total target tla ∧
        ∀ c' ∈ survivors st total target tla, c' ≠ c →
          c'.remainingStockAfter = c.remainingStockAfter → c'.value = c.value →
          pidLt c'.productId c.productId := by
  intro st total target tla c hnd h
  exact ⟨pickBest_mem h, stepChoose_tiebreak hnd h⟩

/-- Witness for the amended C5: at the tied two-product step, the chosen
candidate is "b" and the losing tied candidate "a" is smaller. -/
theorem c5_witness :
    pidLt "a" "b" := by
  have h := c5_amended
    (initState [⟨"a", 30, 0, 30, 1000, true⟩, ⟨"b", 30, 0, 30, 1000, true⟩]) 0 30 0
    ⟨"b", TripKind.full, 30, 30, 0⟩ (by decide) (by decide)
  exact h.2 ⟨"a", TripKind.full, 30, 30, 0⟩ (by decide) (by decide) rfl rfl

/-- C6: on valid input with unique product identifiers the optimizer is
total — it returns a plan and never hits the `best_choice = None`
dereference; in particular whenever `_min_trips_needed` returns `K`, all
`K` construction steps find a guard-passing candidate. -/
theorem c6_never_raises :
    ∀ (products : List OptProduct) (target : ℚ),
      (products.map fun p => p.productId).Nodup →
      (∀ pr ∈ products, 0 ≤ pr.stockL ∧ 0 ≤ pr.minKeepL ∧ 0 ≤ pr.capPerTripL ∧
        0 ≤ pr.pricePer1000) →
      (optimizeMinTrips products target).isSome = true ∧
        ∀ kk, minTripsNeeded (initState products) target = some kk →
          ∃ r, buildGo kk (initState products) 0 0 target = some r := by
  intro products target hnd hvalid
  refine ⟨optimizeMinTrips_isSome products target hnd, ?_⟩
  intro kk hm
  rcases le_or_lt target 0 with hle | hpos
  · have h0 : minTripsNeeded (initState products) target = some 0 := by
      unfold minTripsNeeded
      rw [if_pos hle]
    rw [h0] at hm
    cases hm
    exact ⟨(initState products, 0, 0), rfl⟩
  · obtain ⟨_, hk2, hk3, _⟩ := minTripsNeeded_some_spec hpos hm
    exact buildGo_succeeds kk (initState products) 0 0 target
      ((initState_ids_sublist products).nodup hnd) (by rw [zero_add]; exact hk3) hk2

/-- Witness for C6 at a concrete input. -/
theorem c6_witness :
    (optimizeMinTrips [⟨"a", 100, 0, 30, 1000, true⟩] 50).isSome = true :=
  (c6_never_raises [⟨"a", 100, 0, 30, 1000, true⟩] 50 (by decide) (by decide)).1

/-- C7: a "last" (partial) trip is never selected while the product still
has full trips: in the greedy pop, in the construction-step choice, and —
at the plan level — a line with `last_partial_used` has consumed all of
its product's full trips. -/
theorem c7_partial_after_full :
    (∀ (gs : List GState) (c : Cand) (gs' : List GState),
        (gs.map GState.productId).Nodup →
        greedyStep gs = some (c, gs') → c.kind = TripKind.last →
        ∀ g ∈ gs, g.productId = c.productId → g.remainingFull = 0) ∧
      (∀ (st : List PState) (total target : ℚ) (tla : ℕ) (c : StepCand),
        (st.map fun e => e.productId).Nodup →
        stepChoose st total target tla = some c → c.kind = TripKind.last →
        ∀ e ∈ st, e.productId = c.productId → e.remainingFull = 0) ∧
      (∀ (products : List OptProduct) (target : ℚ) (P : TripPlan),
        (products.map fun p => p.productId).Nodup →
        optimizeMinTrips products target = some P → P.feasible = true →
        ∀ l ∈ P.lines, l.lastPartialUsed = true →
          ∃ pr ∈ products, pr.productId = l.productId ∧ l.fullTrips = fullTripsOf pr) := by
  refine ⟨?_, ?_, ?_⟩
  · intro gs c gs' hnd hg hk g hg_mem hpid_eq
    obtain ⟨hmem, _⟩ := greedyStep_some_spec hg
    obtain ⟨g0, hg0, hc0⟩ := mem_candsOf hmem
    obtain ⟨hpid0, hbr⟩ := candidateForMaxRevenue_spec hc0
    have hgg : g = g0 :=
      List.inj_on_of_nodup_map hnd hg_mem hg0 (by rw [hpid_eq, hpid0])
    rcases hbr with ⟨hk2, _⟩ | ⟨_, hrf, _⟩
    · rw [hk] at hk2
      cases hk2
    · rw [hgg]
      exact hrf
  · intro st total target tla c hnd hc hk e he hpid_eq
    obtain ⟨e0, he0, hpid0, hbranch⟩ := mem_stepCands (stepChoose_spec hc).1
    have hee : e = e0 :=
      List.inj_on_of_nodup_map hnd he he0 (by rw [hpid_eq, hpid0])
    rcases hbranch with ⟨hk2, _⟩ | ⟨_, hrf, _⟩
    · rw [hk] at hk2
      cases hk2
    · rw [hee]
      exact hrf
  · intro products target P hnd h hf l hl hlast
    obtain ⟨hpos, hne, kk, st', total, trips, hm, hb, hP⟩ := optimize_feasible_spec h hf
    have hlines : P.lines = sortLines (buildLines st') := by rw [hP]
    rw [hlines, mem_sortLines] at hl
    obtain ⟨e, he, hnz, hle⟩ := mem_buildLines hl
    have hnds := (initState_ids_sublist products).nodup hnd
    obtain ⟨hinv', _, _, _⟩ := buildGo_preserves kk (initState products) 0 0 target st'
      total trips hnds (initState_state_inv products) hb
    obtain ⟨pr, hpr, hei⟩ := hinv' e he
    obtain ⟨_, _, _, hid, _, _, _, _, _, _, hsum, _, hclrf⟩ := hei
    refine ⟨pr, hpr, ?_, ?_⟩
    · rw [hle]
      exact hid.symm
    · have hcl : e.chosenLast = true := by
        rw [hle] at hlast
        exact hlast
      have hrf := hclrf hcl
      rw [hle]
      show e.chosenFull = fullTripsOf pr
      omega

/-- Witness for C7: with stock 10 below the cap 30, the only trip is the
partial one and the plan line reports all zero full trips consumed. -/
theorem c7_witness :
    optimizeMinTrips [⟨"a", 10, 0, 30, 1000, true⟩] 10 =
        some ⟨true, 10, 10, 1, [⟨"a", 0, true, 10, 10⟩], none⟩ ∧
      ∃ pr ∈ [(⟨"a", 10, 0, 30, 1000, true⟩ : OptProduct)], pr.productId = "a" ∧
        (0 : ℕ) = fullTripsOf pr := by
  refine ⟨by decide, ?_⟩
  exact c7_partial_after_full.2.2 [⟨"a", 10, 0, 30, 1000, true⟩] 10
    ⟨true, 10, 10, 1, [⟨"a", 0, true, 10, 10⟩], none⟩ (by decide) (by decide) rfl
    ⟨"a", 0, true, 10, 10⟩ (by decide) rfl

/-- C8: every line of a feasible plan sells at most the sellable quantity
`stock_l - min_keep_l` and satisfies `sold_l = full_trips * cap +
(remainder if partial used else 0)`; the per-product equation is
preserved by every commit step. -/
theorem c8_stock_conservation :
    (∀ (products : List OptProduct) (target : ℚ) (P : TripPlan),
        (products.map fun p => p.productId).Nodup →
        optimizeMinTrips products target = some P → P.feasible = true →
        ∀ l ∈ P.lines, ∃ pr ∈ products, pr.productId = l.productId ∧
          l.soldL ≤ pr.stockL - pr.minKeepL ∧
          l.soldL = (l.fullTrips : ℚ) * pr.capPerTripL +
            (if l.lastPartialUsed then remainderOf pr else 0)) ∧
      (∀ (st : List PState) (total target : ℚ) (tla : ℕ) (c : StepCand),
        (st.map fun e => e.productId).Nodup →
        stepChoose st total target tla = some c →
        (∀ e ∈ st, SoldInv e) → ∀ e ∈ commitChoice st c, SoldInv e) := by
  constructor
  · intro products target P hnd h hf l hl
    obtain ⟨hpos, hne, kk, st', total, trips, hm, hb, hP⟩ := optimize_feasible_spec h hf
    have hlines : P.lines = sortLines (buildLines st') := by rw [hP]
    rw [hlines, mem_sortLines] at hl
    obtain ⟨e, he, hnz, hle⟩ := mem_buildLines hl
    have hnds := (initState_ids_sublist products).nodup hnd
    obtain ⟨hinv', _, _, _⟩ := buildGo_preserves kk (initState products) 0 0 target st'
      total trips hnds (initState_state_inv products) hb
    obtain ⟨pr, hpr, hei⟩ := hinv' e he
    obtain ⟨_, hcap, hstock, hid, _, _, hcapE, _, _, hrem, hsum, ⟨hsold, _⟩, _⟩ := hei
    have hdec := sellable_decomp hcap hstock
    have hFsum : (fullTripsOf pr : ℚ) =
        (e.chosenFull : ℚ) + (e.remainingFull : ℚ) := by
      have hq : ((e.chosenFull + e.remainingFull : ℕ) : ℚ) = ((fullTripsOf pr : ℕ) : ℚ) := by
        exact_mod_cast congrArg (fun n : ℕ => (n : ℚ)) hsum
      push_cast at hq
      linarith
    have hrge := remainderOf_nonneg hcap
    have hexp : (fullTripsOf pr : ℚ) * pr.capPerTripL =
        (e.chosenFull : ℚ) * pr.capPerTripL + (e.remainingFull : ℚ) * pr.capPerTripL := by
      rw [hFsum]
      ring
    have h0 : (0 : ℚ) ≤ (e.remainingFull : ℚ) * pr.capPerTripL :=
      mul_nonneg (Nat.cast_nonneg _) hcap.le
    refine ⟨pr, hpr, ?_, ?_, ?_⟩
    · rw [hle]
      exact hid.symm
    · rw [hle]
      show e.soldL ≤ pr.stockL - pr.minKeepL
      rw [hsold, hcapE, hrem, hdec]
      by_cases hcl : e.chosenLast = true
      · rw [if_pos hcl]
        linarith
      · rw [if_neg hcl]
        linarith
    · rw [hle]
      show e.soldL = (e.chosenFull : ℚ) * pr.capPerTripL +
        (if e.chosenLast then remainderOf pr else 0)
      rw [hsold, hcapE, hrem]
  · intro st total target tla c hnd hc hall e' he'
    rcases List.mem_map.mp he' with ⟨e, he, rfl⟩
    by_cases h : e.productId = c.productId
    · obtain ⟨e0, he0, hpid0, hbranch⟩ := mem_stepCands (stepChoose_spec hc).1
      have hee : e = e0 :=
        List.inj_on_of_nodup_map hnd he he0 (by rw [h, hpid0])
      rw [← hee] at hbranch
      obtain ⟨hsold, hcl⟩ := hall e he
      rcases hbranch with ⟨hk, _, hsoldc, _⟩ | ⟨hk, _, _, hlu, hsoldc, _⟩
      · rw [commitEntry_full h hk]
        refine ⟨?_, hcl⟩
        show e.soldL + c.sold =
          ((e.chosenFull + 1 : ℕ) : ℚ) * e.cap + (if e.chosenLast then e.remL else 0)
        rw [hsoldc, hsold]
        push_cast
        ring
      · rw [commitEntry_last h hk]
        have hclf : e.chosenLast = false := by rw [hcl, hlu]
        refine ⟨?_, rfl⟩
        show e.soldL + c.sold = (e.chosenFull : ℚ) * e.cap + (if true = true then e.remL else 0)
        rw [hsoldc, hsold, hclf]
        simp
    · rw [commitEntry_of_ne h]
      exact hall e he

/-- Witness for C8: stock 40, cap 30 sells one full trip plus the
10-litre remainder, staying within the sellable quantity. -/
theorem c8_witness :
    optimizeMinTrips [⟨"a", 40, 0, 30, 1000, true⟩] 40 =
        some ⟨true, 40, 40, 2, [⟨"a", 1, true, 40, 40⟩], none⟩ ∧
      ∃ pr ∈ [(⟨"a", 40, 0, 30, 1000, true⟩ : OptProduct)], pr.productId = "a" ∧
        (40 : ℚ) ≤ pr.stockL - pr.minKeepL ∧
        (40 : ℚ) = ((1 : ℕ) : ℚ) * pr.capPerTripL + (if true then remainderOf pr else 0) := by
  refine ⟨by decide, ?_⟩
  exact c8_stock_conservation.1 [⟨"a", 40, 0, 30, 1000, true⟩] 40
    ⟨true, 40, 40, 2, [⟨"a", 1, true, 40, 40⟩], none⟩ (by decide) (by decide) rfl
    ⟨"a", 1, true, 40, 40⟩ (by decide)

/-- C9: for a fixed product list and positive targets `t1 ≤ t2`, if both
targets are feasible then the plan for `t2` uses at least as many trips
as the plan for `t1`. -/
theorem c9_target_monotonicity :
    ∀ (products : List OptProduct) (t1 t2 : ℚ) (P1 P2 : TripPlan),
      0 < t1 → t1 ≤ t2 →
      optimizeMinTrips products t1 = some P1 → P1.feasible = true →
      optimizeMinTrips products t2 = some P2 → P2.feasible = true →
      P1.totalTrips ≤ P2.totalTrips := by
  intro products t1 t2 P1 P2 h1 h12 hP1 hf1 hP2 hf2
  obtain ⟨hpos1, _, k1, st1, tot1, tr1, hm1, hb1, hP1e⟩ := optimize_feasible_spec hP1 hf1
  obtain ⟨hpos2, _, k2, st2, tot2, tr2, hm2, hb2, hP2e⟩ := optimize_feasible_spec hP2 hf2
  obtain ⟨_, _, h13, h14⟩ := minTripsNeeded_some_spec hpos1 hm1
  obtain ⟨_, _, h23, _⟩ := minTripsNeeded_some_spec hpos2 hm2
  have htr1 : P1.totalTrips = k1 := by
    rw [hP1e]
    show tr1 = k1
    have := buildGo_trips k1 (initState products) 0 0 t1 st1 tot1 tr1 hb1
    omega
  have htr2 : P2.totalTrips = k2 := by
    rw [hP2e]
    show tr2 = k2
    have := buildGo_trips k2 (initState products) 0 0 t2 st2 tot2 tr2 hb2
    omega
  rw [htr1, htr2]
  by_contra hlt
  push_neg at hlt
  have hlow := h14 k2 hlt
  linarith

/-- Witness for C9: target 30 needs 1 trip, target 50 needs 2. -/
theorem c9_witness :
    optimizeMinTrips [⟨"a", 100, 0, 30, 1000, true⟩] 30 =
        some ⟨true, 30, 30, 1, [⟨"a", 1, false, 30, 30⟩], none⟩ ∧
      optimizeMinTrips [⟨"a", 100, 0, 30, 1000, true⟩] 50 =
        some ⟨true, 50, 60, 2, [⟨"a", 2, false, 60, 60⟩], none⟩ ∧
      (1 : ℕ) ≤ 2 := by
  refine ⟨by decide, by decide, ?_⟩
  exact c9_target_monotonicity [⟨"a", 100, 0, 30, 1000, true⟩] 30 50
    ⟨true, 30, 30, 1, [⟨"a", 1, false, 30, 30⟩], none⟩
    ⟨true, 50, 60, 2, [⟨"a", 2, false, 60, 60⟩], none⟩
    (by norm_num) (by norm_num) (by decide) rfl (by decide) rfl

/-- C10: every feasible plan is self-consistent — `total_trips` is the
sum of per-line trips, `total_revenue_eur` is the sum of per-line
revenues, and each line's revenue is `sold_l * price_per_1000 / 1000`;
every infeasible plan has no lines. -/
theorem c10_plan_self_consistent :
    ∀ (products : List OptProduct) (target : ℚ) (P : TripPlan),
      (products.map fun p => p.productId).Nodup →
      optimizeMinTrips products target = some P →
      (P.feasible = true →
        P.totalTrips = planTrips P.lines ∧
          P.totalRevenueEur = planRevenue P.lines ∧
          ∀ l ∈ P.lines, ∃ pr ∈ products, pr.productId = l.productId ∧
            l.revenueEur = l.soldL * (pr.pricePer1000 / 1000)) ∧
        (P.feasible = false → P.lines = []) := by
  intro products target P hnd h
  constructor
  · intro hf
    obtain ⟨hpos, hne, kk, st', total, trips, hm, hb, hP⟩ := optimize_feasible_spec h hf
    have hnds := (initState_ids_sublist products).nodup hnd
    obtain ⟨hinv', _, hS1, hS2⟩ := buildGo_preserves kk (initState products) 0 0 target st'
      total trips hnds (initState_state_inv products) hb
    rw [initState_stTrips] at hS1
    rw [initState_stRevenue] at hS2
    have hT : stTrips st' = trips := by omega
    have hR : stRevenue st' = total := by linarith
    have hzero : ∀ e ∈ st', e.chosenFull = 0 ∧ e.chosenLast = false → e.soldL = 0 := by
      intro e he hz
      obtain ⟨pr, hpr, hei⟩ := hinv' e he
      obtain ⟨_, _, _, _, _, _, _, _, _, _, _, ⟨hsold, _⟩, _⟩ := hei
      rw [hsold, hz.1, hz.2]
      simp
    have hlines : P.lines = sortLines (buildLines st') := by rw [hP]
    have hPt : P.totalTrips = trips := by rw [hP]
    have hPr : P.totalRevenueEur = total := by rw [hP]
    refine ⟨?_, ?_, ?_⟩
    · rw [hPt, hlines, planTrips_sortLines, planTrips_buildLines, hT]
    · rw [hPr, hlines, planRevenue_sortLines, planRevenue_buildLines st' hzero, hR]
    · intro l hl
      rw [hlines, mem_sortLines] at hl
      obtain ⟨e, he, _, hle⟩ := mem_buildLines hl
      obtain ⟨pr, hpr, hei⟩ := hinv' e he
      obtain ⟨_, _, _, hid, _, _, _, hp, _⟩ := hei
      refine ⟨pr, hpr, ?_, ?_⟩
      · rw [hle]
        exact hid.symm
      · rw [hle]
        show e.soldL * e.pPerL = e.soldL * (pr.pricePer1000 / 1000)
        rw [hp]
  · intro hf
    exact (optimize_infeasible_spec h hf).1

/-- Witness for C10 at a concrete feasible plan. -/
theorem c10_witness :
    optimizeMinTrips [⟨"a", 40, 0, 30, 1000, true⟩] 40 =
        some ⟨true, 40, 40, 2, [⟨"a", 1, true, 40, 40⟩], none⟩ ∧
      (2 : ℕ) = planTrips [⟨"a", 1, true, 40, 40⟩] ∧
      (40 : ℚ) = planRevenue [⟨"a", 1, true, 40, 40⟩] := by
  refine ⟨by decide, ?_, ?_⟩
  · exact (c10_plan_self_consistent [⟨"a", 40, 0, 30, 1000, true⟩] 40
      ⟨true, 40, 40, 2, [⟨"a", 1, true, 40, 40⟩], none⟩ (by decide) (by decide)).1 rfl |>.1
  · exact ((c10_plan_self_consistent [⟨"a", 40, 0, 30, 1000, true⟩] 40
      ⟨true, 40, 40, 2, [⟨"a", 1, true, 40, 40⟩], none⟩ (by decide) (by decide)).1 rfl).2.1
